import Mathlib

/-!
Verification development for the Broheim Mod Tracker
(`Broheim_ModTracker/Broheim_ModTracker.py`).

Python strings are modelled as `List Char`; Python values occurring in the
mod manifest are modelled by the mutual inductives `PyVal` / `PyDict`.
The functions `parse_mod_info`, `version_key`, `calculate_statistics`,
`export_to_csv`, `load_csv_for_comparison` and the pure diff core of
`compare_exports` are translated from the source file.  Library calls of the
Python standard library (`str.strip`, `str.split`, `int(...)`, `csv.writer`,
`csv.DictReader`, `Counter.most_common`, `sorted`) are modelled by explicit
Lean functions next to their call sites; each such model carries a comment.
Wall-clock time (`datetime.now()`) is passed in as an explicit argument.
-/

/-- ASCII whitespace recognised by Python `str.strip` / `int` parsing
(the model covers the ASCII range of Python whitespace). -/
def isPySpace (c : Char) : Bool :=
  c = ' ' || c = '\t' || c = '\n' || c = '\r' || c = '\x0b' || c = '\x0c'

/-- Model of Python `str.lstrip()`. -/
def lstripChars (s : List Char) : List Char := s.dropWhile isPySpace

/-- Model of Python `str.rstrip()`. -/
def rstripChars (s : List Char) : List Char := (s.reverse.dropWhile isPySpace).reverse

/-- Model of Python `str.strip()`. -/
def stripChars (s : List Char) : List Char := rstripChars (lstripChars s)

/-- Model of Python `str.startswith` on char lists: `startsChars s p` is true
iff `p` is an initial segment of `s`. -/
def startsChars : List Char → List Char → Bool
  | _, [] => true
  | [], _ :: _ => false
  | c :: cs, p :: ps => c = p && startsChars cs ps

/-- Model of Python `str.split(sep)` for a one-character separator; note that
Python yields `[""]` on the empty string. -/
def splitOnChar (sep : Char) : List Char → List (List Char)
  | [] => [[]]
  | c :: cs =>
    if c = sep then [] :: splitOnChar sep cs
    else
      match splitOnChar sep cs with
      | [] => [[c]]
      | h :: t => (c :: h) :: t

/-- Decimal digit character for a digit value (values ≥ 9 fall to the last
arm; callers only use it with arguments < 10). -/
def digitChar (k : Nat) : Char :=
  if k = 0 then '0' else if k = 1 then '1' else if k = 2 then '2'
  else if k = 3 then '3' else if k = 4 then '4' else if k = 5 then '5'
  else if k = 6 then '6' else if k = 7 then '7' else if k = 8 then '8' else '9'

/-- Fuel-driven core of the decimal rendering of a natural number. -/
def natCharsCore : Nat → Nat → List Char
  | 0, _ => []
  | fuel + 1, n =>
    if n < 10 then [digitChar n]
    else natCharsCore fuel (n / 10) ++ [digitChar (n % 10)]

/-- Decimal rendering of a natural number (model of Python `str(n)` for
`n ≥ 0`); `n + 1` units of fuel always suffice. -/
def natChars (n : Nat) : List Char := natCharsCore (n + 1) n

/-- Model of Python `str(n)` for an arbitrary integer. -/
def intChars (n : Int) : List Char :=
  if n < 0 then '-' :: natChars n.natAbs else natChars n.toNat

/-- Numeric value of a decimal digit character. -/
def digitVal (c : Char) : Nat := c.toNat - 48

/-- Digit run after the first digit of a Python integer literal: single
underscores are allowed between digits (Python 3.6+), nothing else. -/
def digitsTail : List Char → Nat → Option Nat
  | [], acc => some acc
  | '_' :: c :: cs, acc =>
    if c.isDigit then digitsTail cs (acc * 10 + digitVal c) else Option.none
  | ['_'], _ => Option.none
  | c :: cs, acc =>
    if c.isDigit then digitsTail cs (acc * 10 + digitVal c) else Option.none

/-- A nonempty digit run (first char must be a digit). -/
def startDigits : List Char → Option Nat
  | [] => Option.none
  | c :: cs => if c.isDigit then digitsTail cs (digitVal c) else Option.none

/-- Model of Python `int(s)` on a string: optional surrounding whitespace, an
optional sign, then decimal digits with optional single underscores between
digits; `Option.none` models the `ValueError` raised otherwise. -/
def pyIntChars (s : List Char) : Option Int :=
  match stripChars s with
  | '+' :: rest => (startDigits rest).map Int.ofNat
  | '-' :: rest => (startDigits rest).map (fun n => -(Int.ofNat n))
  | rest => (startDigits rest).map Int.ofNat

mutual
/-- Model of the Python values occurring in a `mods.yml` record: `None`,
booleans, integers, strings and string-keyed mappings. -/
inductive PyVal where
  | none : PyVal
  | bool : Bool → PyVal
  | int : Int → PyVal
  | str : List Char → PyVal
  | dict : PyDict → PyVal

/-- A Python mapping with string keys, as an insertion-ordered list. -/
inductive PyDict where
  | nil : PyDict
  | cons : List Char → PyVal → PyDict → PyDict
end

/-- Build a `PyDict` from a key/value list (insertion order preserved). -/
def PyDict.ofList : List (List Char × PyVal) → PyDict
  | [] => PyDict.nil
  | (k, v) :: rest => PyDict.cons k v (PyDict.ofList rest)

/-- Model of Python `dict.get(key, default)`. -/
def dictGet : PyDict → List Char → PyVal → PyVal
  | PyDict.nil, _, dflt => dflt
  | PyDict.cons k v rest, key, dflt => if k = key then v else dictGet rest key dflt

/-- Model of Python truthiness for the modelled value universe. -/
def pyTruthy : PyVal → Bool
  | PyVal.none => false
  | PyVal.bool b => b
  | PyVal.int n => decide (n ≠ 0)
  | PyVal.str s => decide (s ≠ [])
  | PyVal.dict PyDict.nil => false
  | PyVal.dict (PyDict.cons _ _ _) => true

/-- Backslash-escaping used inside the `repr` of a string (the model escapes
the backslash and the single quote; control-character escapes and quote-style
selection of CPython are not modelled — no claim depends on them). -/
def escRepr (s : List Char) : List Char :=
  s.flatMap (fun c => if c = '\\' || c = '\'' then ['\\', c] else [c])

mutual
/-- Model of Python `repr` on the modelled value universe. -/
def pyRepr : PyVal → List Char
  | PyVal.none => "None".toList
  | PyVal.bool true => "True".toList
  | PyVal.bool false => "False".toList
  | PyVal.int n => intChars n
  | PyVal.str s => '\'' :: (escRepr s ++ ['\''])
  | PyVal.dict d => '{' :: (pyReprEntries d ++ ['}'])

/-- Rendering of the comma-separated entries of a mapping. -/
def pyReprEntries : PyDict → List Char
  | PyDict.nil => []
  | PyDict.cons k v PyDict.nil =>
    '\'' :: (escRepr k ++ '\'' :: ':' :: ' ' :: pyRepr v)
  | PyDict.cons k v (PyDict.cons k2 v2 rest) =>
    '\'' :: (escRepr k ++ '\'' :: ':' :: ' ' :: pyRepr v) ++
      ',' :: ' ' :: pyReprEntries (PyDict.cons k2 v2 rest)
end

/-- Model of Python `str(v)` (as used by an f-string conversion field):
identity on strings, `repr`-like rendering otherwise. -/
def pyStr (v : PyVal) : List Char :=
  match v with
  | PyVal.str s => s
  | v => pyRepr v

/-- The record returned by `parse_mod_info`: the dynamic Python dict with the
six keys `name, author, version, description, enabled, website`.  `version`
and `enabled` are always strings in the source (`f"..."` and `'Yes'/'No'`),
the other four fields carry whatever value `dict.get` produced. -/
structure ParsedMod where
  name : PyVal
  author : PyVal
  version : List Char
  description : PyVal
  enabled : List Char
  website : PyVal

/-- Translation of `parse_mod_info` (source lines 169–200).  The call
reading the major field raises `AttributeError` when the versionNumber
value obtained by `dict.get` is not a mapping; this is modelled by the
`Except.error` branch. -/
def parse_mod_info (mod : PyDict) : Except (List Char) ParsedMod :=
  match dictGet mod "versionNumber".toList (PyVal.dict PyDict.nil) with
  | PyVal.dict version =>
    Except.ok
      { name := dictGet mod "displayName".toList
          (dictGet mod "name".toList (PyVal.str "Unknown".toList)),
        author := dictGet mod "authorName".toList (PyVal.str "Unknown".toList),
        version :=
          pyStr (dictGet version "major".toList (PyVal.int 0)) ++
            '.' :: pyStr (dictGet version "minor".toList (PyVal.int 0)) ++
            '.' :: pyStr (dictGet version "patch".toList (PyVal.int 0)),
        description := dictGet mod "description".toList (PyVal.str []),
        enabled :=
          if pyTruthy (dictGet mod "enabled".toList (PyVal.bool false))
          then "Yes".toList else "No".toList,
        website := dictGet mod "websiteUrl".toList (PyVal.str []) }
  | _ => Except.error "AttributeError".toList

/-- A canonical mod record: the six string fields that `parse_mod_info`
produces on schema-conforming manifests and that the exporter and the
snapshot reader work with. -/
structure ModRecord where
  name : List Char
  author : List Char
  version : List Char
  description : List Char
  enabled : List Char
  website : List Char
deriving DecidableEq

/-- All-or-nothing integer parse of the dot-separated components, modelling
`tuple(int(p) for p in parts)` inside the `try` of `version_key`. -/
def parseParts : List (List Char) → Option (List Int)
  | [] => some []
  | p :: ps =>
    match pyIntChars p, parseParts ps with
    | some n, some ns => some (n :: ns)
    | _, _ => Option.none

/-- Translation of `version_key` (source lines 243–252): split the version
string on `'.'`, convert every component with `int`; any conversion failure
is caught by the bare `except` and `(0, 0, 0)` is returned.  Python tuples of
integers are modelled as `List Int` (tuple comparison is lexicographic, as is
the list order used below). -/
def version_key (m : ModRecord) : List Int :=
  match parseParts (splitOnChar '.' m.version) with
  | some ts => ts
  | Option.none => [0, 0, 0]

/-- Lexicographic comparison of integer lists, matching Python tuple
comparison (a strict prefix compares as smaller). -/
def listLe : List Int → List Int → Bool
  | [], _ => true
  | _ :: _, [] => false
  | a :: as, b :: bs => if a < b then true else if b < a then false else listLe as bs

/-- Python sorting with key `version_key` and reverse order keeps `a` before `b` when
`version_key b ≤ version_key a`; insertion sort with this total preorder is
stable in the same way as Python `sorted`. -/
abbrev rVerDesc : ModRecord → ModRecord → Prop :=
  fun a b => listLe (version_key b) (version_key a) = true

/-- Ascending variant (used for the specification side of the oldest-five
description). -/
abbrev rVerAsc : ModRecord → ModRecord → Prop :=
  fun a b => listLe (version_key a) (version_key b) = true

/-- One `Counter` update: increment the entry of `a`, appending a fresh entry
with count 1 when absent (Python dicts keep first-insertion order). -/
def bumpCount : List (List Char × Nat) → List Char → List (List Char × Nat)
  | [], a => [(a, 1)]
  | (b, n) :: rest, a =>
    if a = b then (b, n + 1) :: rest else (b, n) :: bumpCount rest a

/-- Model of the author Counter built by `calculate_statistics`: an
insertion-ordered association list of authors and occurrence counts. -/
def authorCounts (l : List ModRecord) : List (List Char × Nat) :=
  l.foldl (fun acc m => bumpCount acc m.author) []

/-- The call `Counter.most_common(5)` ranks entries by count, descending, ties in
first-encounter order; this is the stable descending order used below. -/
abbrev rCountDesc : (List Char × Nat) → (List Char × Nat) → Prop :=
  fun x y => y.2 ≤ x.2

/-- The statistics summary assembled by `calculate_statistics` (source lines
208–272); `export_date` is the wall-clock string, passed in explicitly. -/
structure ModStats where
  profile_name : List Char
  export_date : List Char
  total_mods : Nat
  enabled_mods : Nat
  disabled_mods : Nat
  unique_authors : Nat
  top_authors : List (List Char × Nat)
  newest_mods : List ModRecord
  oldest_mods : List ModRecord
deriving DecidableEq

/-- Translation of `calculate_statistics`.  Python `sorted` is a stable sort;
it is modelled by `List.insertionSort`, which is stable for the same tie
convention.  `sorted_by_version[-5:]` is `drop (length - 5)` (the whole list
when it has fewer than five elements), and `[::-1]` is `reverse`. -/
def calculate_statistics (mods_list : List ModRecord) (profile_name now : List Char) :
    ModStats :=
  let total_mods := mods_list.length
  let enabled_mods := mods_list.countP (fun m => decide (m.enabled = "Yes".toList))
  let counts := authorCounts mods_list
  let sorted_by_version := mods_list.insertionSort rVerDesc
  { profile_name := profile_name,
    export_date := now,
    total_mods := total_mods,
    enabled_mods := enabled_mods,
    disabled_mods := total_mods - enabled_mods,
    unique_authors := counts.length,
    top_authors := (counts.insertionSort rCountDesc).take 5,
    newest_mods := sorted_by_version.take 5,
    oldest_mods := (sorted_by_version.drop (sorted_by_version.length - 5)).reverse }

/-- Modelled from the spec (§4.2, step 5): "Sort ascending by the same key;
take first 5 as oldest" — the first of the two descriptions of the oldest-five
list, to be compared with the one implemented in `calculate_statistics`. -/
def specOldestFive (l : List ModRecord) : List ModRecord :=
  (l.insertionSort rVerAsc).take 5

/-- Index of the first occurrence of `a` in `l` (length of `l` when absent);
used to express first-encounter order of authors. -/
def firstIdx : List (List Char) → List Char → Nat
  | [], _ => 0
  | b :: bs, a => if a = b then 0 else firstIdx bs a + 1

/-- The field contains neither carriage return nor line feed. -/
def noCRLF (s : List Char) : Prop := ∀ c ∈ s, c ≠ '\r' ∧ c ≠ '\n'

/-- Model of the quoting test of Python `csv.writer` (default dialect,
QUOTE_MINIMAL): a field is quoted iff it contains the delimiter, the quote
char, or a line-terminator character. -/
def needsQuote (s : List Char) : Bool :=
  s.any (fun c => c = ',' || c = '"' || c = '\r' || c = '\n')

/-- Double each quote character (csv escaping inside a quoted field). -/
def escQuotes (s : List Char) : List Char :=
  s.flatMap (fun c => if c = '"' then ['"', '"'] else [c])

/-- Render one csv field (model of `csv.writer`, default dialect). -/
def csvCell (s : List Char) : List Char :=
  if needsQuote s then '"' :: (escQuotes s ++ ['"']) else s

/-- Comma-joining of the rendered fields of one csv record. -/
def csvJoinCells : List (List Char) → List Char
  | [] => []
  | [c] => csvCell c
  | c :: c2 :: rest => csvCell c ++ ',' :: csvJoinCells (c2 :: rest)

/-- Render one `writerow` call: comma-joined fields plus the default
CRLF line terminator (the file is opened with empty newline mode).  A row
consisting of a single empty field is written as `""` by the csv module, to
keep it distinct from a blank line. -/
def csvLine (cells : List (List Char)) : List Char :=
  match cells with
  | [[]] => ['"', '"', '\r', '\n']
  | _ => csvJoinCells cells ++ ['\r', '\n']

/-- The column-header row of the mod table (source line 343). -/
def headerCells : List (List Char) :=
  ["Author".toList, "Mod Name".toList, "Version".toList, "Enabled".toList,
    "Description".toList, "Website".toList]

/-- The data row written for one mod (source lines 347–355). -/
def dataCells (m : ModRecord) : List (List Char) :=
  [m.author, m.name, m.version, m.enabled, m.description, m.website]

/-- The statistics preamble rows of `export_to_csv` (source lines 308–342),
in order: statistics block, top authors, newest mods, oldest mods, and the
COMPLETE MOD LIST banner.  Integer cells are stringified by the writer. -/
def statsRows (stats : ModStats) : List (List (List Char)) :=
  [["PROFILE STATISTICS".toList],
    [[]],
    ["Profile Name:".toList, stats.profile_name],
    ["Export Date:".toList, stats.export_date],
    ["Total Mods:".toList, natChars stats.total_mods],
    ["Enabled Mods:".toList, natChars stats.enabled_mods],
    ["Disabled Mods:".toList, natChars stats.disabled_mods],
    ["Unique Authors:".toList, natChars stats.unique_authors],
    [[]],
    ["TOP AUTHORS (by mod count)".toList]] ++
  stats.top_authors.map (fun ac => [ac.1, natChars ac.2 ++ " mods".toList]) ++
  [[[]],
    ["NEWEST MODS (by version)".toList],
    ["Mod Name".toList, "Author".toList, "Version".toList]] ++
  stats.newest_mods.map (fun m => [m.name, m.author, m.version]) ++
  [[[]],
    ["OLDEST MODS (by version)".toList],
    ["Mod Name".toList, "Author".toList, "Version".toList]] ++
  stats.oldest_mods.map (fun m => [m.name, m.author, m.version]) ++
  [[[]], [[]], ["COMPLETE MOD LIST".toList], [[]]]

/-- Translation of `export_to_csv` (source lines 303–357), as the text it
writes: the statistics preamble, the six-column header, then one row per
record in the given order. -/
def export_to_csv (mods_list : List ModRecord) (stats : ModStats) : List Char :=
  ((statsRows stats ++ [headerCells] ++ mods_list.map dataCells).map csvLine).flatten

/-- Model of `f.readlines()`: split after every `'\n'`, keeping it; a final
fragment without a newline is kept as well. -/
def splitLinesKeepNl : List Char → List (List Char)
  | [] => []
  | c :: cs =>
    if c = '\n' then ['\n'] :: splitLinesKeepNl cs
    else
      match splitLinesKeepNl cs with
      | [] => [[c]]
      | l :: ls => (c :: l) :: ls

/-- Strip one trailing line terminator (`\r\n` or `\n`) from a physical line
before csv-parsing it. -/
def dropEol (l : List Char) : List Char :=
  match l.reverse with
  | '\n' :: '\r' :: r => r.reverse
  | '\n' :: r => r.reverse
  | _ => l

/-- Parser state of the csv field scanner (mirrors the CPython `csv` module
states START_FIELD / IN_FIELD / IN_QUOTED_FIELD / QUOTE_IN_QUOTED_FIELD). -/
inductive CsvSt where
  | startField : CsvSt
  | inField : CsvSt
  | inQuoted : CsvSt
  | quoteInQuoted : CsvSt

/-- Character scanner of one csv record (default dialect, non-strict), over a
line with the terminator already removed: `fld` is the field being built,
`row` the fields finished so far. -/
def csvScan : List Char → CsvSt → List Char → List (List Char) → List (List Char)
  | [], _, fld, row => row ++ [fld]
  | c :: cs, CsvSt.startField, fld, row =>
    if c = '"' then csvScan cs CsvSt.inQuoted fld row
    else if c = ',' then csvScan cs CsvSt.startField [] (row ++ [fld])
    else csvScan cs CsvSt.inField (fld ++ [c]) row
  | c :: cs, CsvSt.inField, fld, row =>
    if c = ',' then csvScan cs CsvSt.startField [] (row ++ [fld])
    else csvScan cs CsvSt.inField (fld ++ [c]) row
  | c :: cs, CsvSt.inQuoted, fld, row =>
    if c = '"' then csvScan cs CsvSt.quoteInQuoted fld row
    else csvScan cs CsvSt.inQuoted (fld ++ [c]) row
  | c :: cs, CsvSt.quoteInQuoted, fld, row =>
    if c = '"' then csvScan cs CsvSt.inQuoted (fld ++ ['"']) row
    else if c = ',' then csvScan cs CsvSt.startField [] (row ++ [fld])
    else csvScan cs CsvSt.inField (fld ++ [c]) row

/-- Model of the `csv` reader on one physical line (terminator removed): an
empty line yields the empty record, which `DictReader` skips.  Records whose
quoted fields span several physical lines are outside this model (the reader
is only applied under hypotheses that exclude embedded line breaks). -/
def parseCsvLine (l : List Char) : List (List Char) :=
  match l with
  | [] => []
  | c :: cs => csvScan (c :: cs) CsvSt.startField [] []

/-- The literal header marker `Author,Mod Name,Version` of
`load_csv_for_comparison` (source line 518). -/
def headerMark : List Char := "Author,Mod Name,Version".toList

/-- One line of the scan loop: the stripped line starts with the header marker. -/
def isHeaderLine (l : List Char) : Bool := startsChars (stripChars l) headerMark

/-- The scan for the first header line (source lines 516–520), returning that
line together with the following lines, or `Option.none` when no line
matches. -/
def findHeaderRest : List (List Char) → Option (List Char × List (List Char))
  | [] => Option.none
  | l :: ls => if isHeaderLine l then some (l, ls) else findHeaderRest ls

/-- A row as produced by `csv.DictReader`: field name to field value, in
column order.  Surplus cells (kept by Python under the `None` rest key) are
dropped; absent cells (Python rest value `None`) are simply missing, which
the lookups below report as `Option.none`. -/
abbrev CsvRow := List (List Char × List Char)

/-- Model of `row.get(key)`. -/
def rowGet (row : CsvRow) (k : List Char) : Option (List Char) :=
  (row.find? (fun p => decide (p.1 = k))).map Prod.snd

/-- Model of a Python dict store `mods[key] = row`: overwrite in place when
the key exists, append otherwise. -/
def dictInsert {α : Type} : List (List Char × α) → List Char → α → List (List Char × α)
  | [], k, v => [(k, v)]
  | (k2, v2) :: rest, k, v =>
    if k2 = k then (k2, v) :: rest else (k2, v2) :: dictInsert rest k v

/-- Processing of one data line by the reader loop (source lines 534–540):
parse it, skip blank records, skip records with a falsy author or mod name,
otherwise store under the colon-joined author and mod-name key. -/
def readerStep (fieldnames : List (List Char)) (acc : List (List Char × CsvRow))
    (line : List Char) : List (List Char × CsvRow) :=
  match parseCsvLine (dropEol line) with
  | [] => acc
  | c :: cs =>
    let row := fieldnames.zip (c :: cs)
    let aut := (rowGet row "Author".toList).getD []
    let nm := (rowGet row "Mod Name".toList).getD []
    if aut ≠ [] ∧ nm ≠ [] then dictInsert acc (aut ++ ':' :: nm) row else acc

/-- Translation of `load_csv_for_comparison` (source lines 485–542), from the
file text to the key→row mapping (an insertion-ordered dict model). -/
def load_csv_for_comparison (text : List Char) : List (List Char × CsvRow) :=
  match findHeaderRest (splitLinesKeepNl text) with
  | Option.none => []
  | some (hdr, rest) =>
    let fieldnames := parseCsvLine (dropEol hdr)
    rest.foldl (readerStep fieldnames) []

/-- The colon-joined identity key of a canonical record (author, then name). -/
def modKey (m : ModRecord) : List Char := m.author ++ ':' :: m.name

/-- Key set of a key→row mapping (Python `set(mods.keys())`). -/
def dictKeys (m : List (List Char × CsvRow)) : Finset (List Char) :=
  (m.map Prod.fst).toFinset

/-- Model of `mods[key]` lookup. -/
def lookupRow (m : List (List Char × CsvRow)) (k : List Char) : Option CsvRow :=
  (m.find? (fun p => decide (p.1 = k))).map Prod.snd

/-- The set `added = keys1 - keys2` of `compare_exports` (source line 596). -/
def addedKeys (m1 m2 : List (List Char × CsvRow)) : Finset (List Char) :=
  dictKeys m1 \ dictKeys m2

/-- The set `removed = keys2 - keys1` (source line 597). -/
def removedKeys (m1 m2 : List (List Char × CsvRow)) : Finset (List Char) :=
  dictKeys m2 \ dictKeys m1

/-- The set `common = keys1 & keys2` (source line 598). -/
def commonKeys (m1 m2 : List (List Char × CsvRow)) : Finset (List Char) :=
  dictKeys m1 ∩ dictKeys m2

/-- The `Version` field of the row stored under a key. -/
def versionField (m : List (List Char × CsvRow)) (k : List Char) : Option (List Char) :=
  (lookupRow m k).bind (fun r => rowGet r "Version".toList)

/-- The `Enabled` field of the row stored under a key. -/
def enabledField (m : List (List Char × CsvRow)) (k : List Char) : Option (List Char) :=
  (lookupRow m k).bind (fun r => rowGet r "Enabled".toList)

/-- The common keys whose `Version` fields differ (the loop of source lines
603–605); Python iterates a set, so the result is modelled as a set. -/
def updatedKeys (m1 m2 : List (List Char × CsvRow)) : Finset (List Char) :=
  (commonKeys m1 m2).filter (fun k => versionField m1 k ≠ versionField m2 k)

/-- The version-change triples `(key, old version, new version)` emitted for
the updated keys (source line 605). -/
def updatedTriples (m1 m2 : List (List Char × CsvRow)) :
    Finset (List Char × Option (List Char) × Option (List Char)) :=
  (updatedKeys m1 m2).image (fun k => (k, versionField m2 k, versionField m1 k))

/-- The common keys whose `Enabled` fields differ (source lines 606–607). -/
def enabledChangedKeys (m1 m2 : List (List Char × CsvRow)) : Finset (List Char) :=
  (commonKeys m1 m2).filter (fun k => enabledField m1 k ≠ enabledField m2 k)

/-- Key-presence lookup on a Python mapping (`key in mod` / the stored value
of a present key, regardless of the default `dict.get` would use). -/
def pyLookup : PyDict → List Char → Option PyVal
  | PyDict.nil, _ => Option.none
  | PyDict.cons k v rest, key => if k = key then some v else pyLookup rest key

/-- The count stored for a key in a counter list (0 when absent). -/
def countVal (m : List (List Char × Nat)) (x : List Char) : Nat :=
  ((m.find? (fun e => decide (e.1 = x))).map Prod.snd).getD 0

/-- A canonically formatted version string: decimal digits and dots only. -/
def versionChars (s : List Char) : Prop := ∀ c ∈ s, c.isDigit = true ∨ c = '.'

/-- The hypotheses of the round-trip claim on one record: non-blank author
and name, no embedded line breaks in any field, and a canonically formatted
version string. -/
def goodRecord (m : ModRecord) : Prop :=
  m.author ≠ [] ∧ m.name ≠ [] ∧ noCRLF m.author ∧ noCRLF m.name ∧
    versionChars m.version ∧ noCRLF m.enabled ∧ noCRLF m.description ∧
    noCRLF m.website

instance (s : List Char) : Decidable (noCRLF s) :=
  inferInstanceAs (Decidable (∀ c ∈ s, c ≠ '\r' ∧ c ≠ '\n'))

instance (s : List Char) : Decidable (versionChars s) :=
  inferInstanceAs (Decidable (∀ c ∈ s, c.isDigit = true ∨ c = '.'))

instance (m : ModRecord) : Decidable (goodRecord m) :=
  inferInstanceAs (Decidable (m.author ≠ [] ∧ m.name ≠ [] ∧ noCRLF m.author ∧
    noCRLF m.name ∧ versionChars m.version ∧ noCRLF m.enabled ∧
    noCRLF m.description ∧ noCRLF m.website))

theorem listLe_refl (x : List Int) : listLe x x = true := by
  induction x with
  | nil => rfl
  | cons a as ih => simp [listLe, ih]

theorem listLe_total (x : List Int) : ∀ y, listLe x y = true ∨ listLe y x = true := by
  induction x with
  | nil => intro y; left; rfl
  | cons a as ih =>
    intro y
    cases y with
    | nil => right; rfl
    | cons b bs =>
      rcases lt_trichotomy a b with h | h | h
      · left; simp [listLe, h]
      · subst h
        rcases ih bs with h2 | h2
        · left; simp [listLe, lt_irrefl, h2]
        · right; simp [listLe, lt_irrefl, h2]
      · right; simp [listLe, h]

theorem listLe_trans (x : List Int) :
    ∀ y z, listLe x y = true → listLe y z = true → listLe x z = true := by
  induction x with
  | nil => intro y z _ _; rfl
  | cons a as ih =>
    intro y z hxy hyz
    cases y with
    | nil => simp [listLe] at hxy
    | cons b bs =>
      cases z with
      | nil => simp [listLe] at hyz
      | cons c cs =>
        rw [listLe] at hxy hyz ⊢
        rcases lt_trichotomy a b with h1 | h1 | h1
        · rcases lt_trichotomy b c with h2 | h2 | h2
          · simp [lt_trans h1 h2]
          · subst h2; simp [h1]
          · rw [if_neg (by omega), if_pos h2] at hyz; exact absurd hyz (by simp)
        · subst h1
          rcases lt_trichotomy a c with h2 | h2 | h2
          · simp [h2]
          · subst h2
            simp only [lt_irrefl, if_false] at hxy hyz ⊢
            exact ih bs cs hxy hyz
          · rw [if_neg (by omega), if_pos h2] at hyz; exact absurd hyz (by simp)
        · rw [if_neg (by omega), if_pos h1] at hxy; exact absurd hxy (by simp)

theorem listLe_antisymm (x : List Int) :
    ∀ y, listLe x y = true → listLe y x = true → x = y := by
  induction x with
  | nil =>
    intro y _ hyx
    cases y with
    | nil => rfl
    | cons b bs => simp [listLe] at hyx
  | cons a as ih =>
    intro y hxy hyx
    cases y with
    | nil => simp [listLe] at hxy
    | cons b bs =>
      rw [listLe] at hxy hyx
      rcases lt_trichotomy a b with h1 | h1 | h1
      · rw [if_neg (by omega), if_pos h1] at hyx; exact absurd hyx (by simp)
      · subst h1
        simp only [lt_irrefl, if_false] at hxy hyx
        rw [ih bs hxy hyx]
      · rw [if_neg (by omega), if_pos h1] at hxy; exact absurd hxy (by simp)

theorem digitChar_isDigit (k : Nat) : (digitChar k).isDigit = true := by
  unfold digitChar
  split_ifs <;> decide

theorem natCharsCore_digit :
    ∀ fuel n, ∀ c ∈ natCharsCore fuel n, c.isDigit = true := by
  intro fuel
  induction fuel with
  | zero => intro n c hc; simp [natCharsCore] at hc
  | succ f ih =>
    intro n c hc
    rw [natCharsCore] at hc
    by_cases h : n < 10
    · rw [if_pos h] at hc
      simp only [List.mem_singleton] at hc
      subst hc; exact digitChar_isDigit n
    · rw [if_neg h] at hc
      rcases List.mem_append.mp hc with h2 | h2
      · exact ih _ c h2
      · simp only [List.mem_singleton] at h2
        subst h2; exact digitChar_isDigit _

theorem natChars_digit (n : Nat) : ∀ c ∈ natChars n, c.isDigit = true :=
  natCharsCore_digit (n + 1) n

theorem natCharsCore_ne_nil (fuel n : Nat) (h : fuel ≠ 0) : natCharsCore fuel n ≠ [] := by
  cases fuel with
  | zero => exact absurd rfl h
  | succ f =>
    rw [natCharsCore]
    by_cases h2 : n < 10
    · simp [h2]
    · simp [h2]

theorem natChars_ne_nil (n : Nat) : natChars n ≠ [] :=
  natCharsCore_ne_nil (n + 1) n (by omega)

theorem intChars_ofNat (a : Nat) : intChars (Int.ofNat a) = natChars a := by
  have h : ¬ (Int.ofNat a < 0) := not_lt.mpr (Int.ofNat_nonneg a)
  simp [intChars, h]

theorem pyStr_int (n : Int) : pyStr (PyVal.int n) = intChars n := rfl

theorem dictGet_eq_pyLookup :
    ∀ (d : PyDict) (k : List Char) (dflt : PyVal),
      dictGet d k dflt = (pyLookup d k).getD dflt
  | PyDict.nil, _, _ => rfl
  | PyDict.cons k2 v rest, k, dflt => by
    rw [dictGet, pyLookup]
    by_cases h : k2 = k
    · simp [h]
    · simp [h, dictGet_eq_pyLookup rest k dflt]

/-- Claim C2 (amended): `parse_mod_info` returns a record with all six fields
populated and raises nothing for every mapping whose `versionNumber` value —
the stored value if the key is present, the empty-mapping default otherwise —
is itself a mapping; all other fields may hold arbitrary values or be
missing.  (The unrestricted claim fails: a non-mapping `versionNumber` makes
`version.get` raise `AttributeError`, see the counterexample.) -/
theorem c2_parse_total (mod : PyDict) (d : PyDict)
    (h : dictGet mod "versionNumber".toList (PyVal.dict PyDict.nil) = PyVal.dict d) :
    ∃ r, parse_mod_info mod = Except.ok r := by
  unfold parse_mod_info
  rw [h]
  exact ⟨_, rfl⟩

/-- Witness for C2: the empty mapping parses successfully. -/
theorem c2_parse_total_witness : ∃ r, parse_mod_info PyDict.nil = Except.ok r :=
  c2_parse_total PyDict.nil PyDict.nil rfl

/-- Counterexample for C2 as frozen: a record whose `versionNumber` holds the
integer 5 (a non-mapping) makes `parse_mod_info` raise `AttributeError`
instead of returning a record. -/
theorem c2_parse_cex :
    parse_mod_info (PyDict.cons "versionNumber".toList (PyVal.int 5) PyDict.nil) =
      Except.error "AttributeError".toList := rfl

/-- Claim C3 (amended): the normalized name is the stored display-name value
whenever the `displayName` key is present — even when that value is null —
else the stored internal-name value if `name` is present, else `"Unknown"`.
(The frozen claim required a present-but-null display name to fall back to
the internal name; `dict.get` does not do that, see the counterexample.) -/
theorem c3_name_rule (mod : PyDict) (d : PyDict)
    (h : dictGet mod "versionNumber".toList (PyVal.dict PyDict.nil) = PyVal.dict d) :
    ∃ r, parse_mod_info mod = Except.ok r ∧
      r.name = (pyLookup mod "displayName".toList).getD
        ((pyLookup mod "name".toList).getD (PyVal.str "Unknown".toList)) := by
  unfold parse_mod_info
  rw [h]
  exact ⟨_, rfl, by simp [dictGet_eq_pyLookup]⟩

/-- Witness for C3: a mapping carrying only an internal name; the parsed name
is that internal name. -/
theorem c3_name_rule_witness :
    ∃ r, parse_mod_info (PyDict.cons "name".toList (PyVal.str "Inner".toList) PyDict.nil) =
        Except.ok r ∧
      r.name = (pyLookup (PyDict.cons "name".toList (PyVal.str "Inner".toList) PyDict.nil)
          "displayName".toList).getD
        ((pyLookup (PyDict.cons "name".toList (PyVal.str "Inner".toList) PyDict.nil)
            "name".toList).getD (PyVal.str "Unknown".toList)) :=
  c3_name_rule (PyDict.cons "name".toList (PyVal.str "Inner".toList) PyDict.nil)
    PyDict.nil rfl

/-- Counterexample for C3 as frozen: with `displayName` present but null and
internal name `"X"`, the code keeps the null value instead of falling back to
`"X"`. -/
theorem c3_name_cex :
    ∃ r, parse_mod_info (PyDict.cons "displayName".toList PyVal.none
          (PyDict.cons "name".toList (PyVal.str "X".toList) PyDict.nil)) = Except.ok r ∧
      r.name = PyVal.none ∧ r.name ≠ PyVal.str "X".toList :=
  ⟨_, rfl, rfl, fun h => PyVal.noConfusion h⟩

/-- Claim C9 (amended): whenever `versionNumber` is a mapping whose
`major`/`minor`/`patch` entries are non-negative integers where present
(absent entries default to the integer 0), the parsed version string has the
form `"<major>.<minor>.<patch>"` with decimal-digit components.  (The frozen
claim further said ill-typed sub-fields collapse to `"0.0.0"`; they do not —
their `str()` rendering is interpolated verbatim, see the counterexample.) -/
theorem c9_version_format (mod : PyDict) (d : PyDict) (a b c : Nat)
    (h : dictGet mod "versionNumber".toList (PyVal.dict PyDict.nil) = PyVal.dict d)
    (ha : dictGet d "major".toList (PyVal.int 0) = PyVal.int (Int.ofNat a))
    (hb : dictGet d "minor".toList (PyVal.int 0) = PyVal.int (Int.ofNat b))
    (hc : dictGet d "patch".toList (PyVal.int 0) = PyVal.int (Int.ofNat c)) :
    ∃ r, parse_mod_info mod = Except.ok r ∧
      r.version = natChars a ++ '.' :: natChars b ++ '.' :: natChars c ∧
      ∀ ch ∈ r.version, ch.isDigit = true ∨ ch = '.' := by
  unfold parse_mod_info
  rw [h]
  have hv : pyStr (dictGet d "major".toList (PyVal.int 0)) ++
      '.' :: pyStr (dictGet d "minor".toList (PyVal.int 0)) ++
      '.' :: pyStr (dictGet d "patch".toList (PyVal.int 0)) =
      natChars a ++ '.' :: natChars b ++ '.' :: natChars c := by
    rw [ha, hb, hc, pyStr_int, pyStr_int, pyStr_int,
      intChars_ofNat, intChars_ofNat, intChars_ofNat]
  refine ⟨_, rfl, hv, ?_⟩
  intro ch hch
  rw [hv] at hch
  rcases List.mem_append.mp hch with h1 | h1
  · rcases List.mem_append.mp h1 with h2 | h2
    · exact Or.inl (natChars_digit a ch h2)
    · rcases List.mem_cons.mp h2 with h3 | h3
      · exact Or.inr h3
      · exact Or.inl (natChars_digit b ch h3)
  · rcases List.mem_cons.mp h1 with h2 | h2
    · exact Or.inr h2
    · exact Or.inl (natChars_digit c ch h2)

/-- Witness for C9: sub-fields 5/4/2333 produce the version string
`"5.4.2333"` in the stated shape. -/
theorem c9_version_format_witness :
    ∃ r, parse_mod_info (PyDict.cons "versionNumber".toList
          (PyVal.dict (PyDict.cons "major".toList (PyVal.int 5)
            (PyDict.cons "minor".toList (PyVal.int 4)
              (PyDict.cons "patch".toList (PyVal.int 2333) PyDict.nil)))) PyDict.nil) =
        Except.ok r ∧
      r.version = natChars 5 ++ '.' :: natChars 4 ++ '.' :: natChars 2333 ∧
      ∀ ch ∈ r.version, ch.isDigit = true ∨ ch = '.' :=
  c9_version_format _ _ 5 4 2333 rfl rfl rfl rfl

theorem xdot_version_shape :
    ¬ ∃ a b c : Nat,
      "x.0.0".toList = natChars a ++ '.' :: natChars b ++ '.' :: natChars c := by
  rintro ⟨a, b, c, h⟩
  cases hna : natChars a with
  | nil => exact natChars_ne_nil a hna
  | cons ch t =>
    rw [hna] at h
    have hL : "x.0.0".toList = 'x' :: ".0.0".toList := rfl
    rw [hL] at h
    simp only [List.cons_append] at h
    injection h with hch₂ _
    have hd : ch.isDigit = true :=
      natChars_digit a ch (by rw [hna]; exact List.mem_cons_self ch t)
    rw [← hch₂] at hd
    exact absurd hd (by decide)

/-- Counterexample for C9 as frozen: a string-valued `major` sub-field yields
the version `"x.0.0"`, which neither has the numeric component shape nor is
the claimed `"0.0.0"` default. -/
theorem c9_version_cex :
    ∃ r, parse_mod_info (PyDict.cons "versionNumber".toList
          (PyVal.dict (PyDict.cons "major".toList (PyVal.str "x".toList) PyDict.nil))
          PyDict.nil) = Except.ok r ∧
      r.version = "x.0.0".toList ∧ r.version ≠ "0.0.0".toList ∧
      ¬ ∃ a b c : Nat, r.version = natChars a ++ '.' :: natChars b ++ '.' :: natChars c :=
  ⟨_, rfl, rfl, by decide, xdot_version_shape⟩

theorem parseParts_some (l : List (List Char))
    (h : ∀ p ∈ l, pyIntChars p ≠ Option.none) :
    parseParts l = some (l.map (fun p => (pyIntChars p).getD 0)) := by
  induction l with
  | nil => rfl
  | cons p ps ih =>
    obtain ⟨n, hn⟩ := Option.ne_none_iff_exists'.mp (h p (List.mem_cons_self p ps))
    rw [parseParts, hn, ih (fun q hq => h q (List.mem_cons_of_mem p hq))]
    simp [hn]

theorem parseParts_none (l : List (List Char))
    (h : ∃ p ∈ l, pyIntChars p = Option.none) :
    parseParts l = Option.none := by
  induction l with
  | nil => simp at h
  | cons p ps ih =>
    rcases h with ⟨q, hq, hqn⟩
    rcases List.mem_cons.mp hq with rfl | hq2
    · cases hps : parseParts ps <;> simp [parseParts, hqn, hps]
    · cases hp : pyIntChars p <;>
        simp [parseParts, hp, ih ⟨q, hq2, hqn⟩]

/-- Claim C4 (amended): `version_key` splits the version string on `'.'` and
converts each component with `int`; if every component converts, the result
is the tuple of those integers, whose arity is the number of components
(not necessarily three); if any component fails to convert, the bare
`except` yields `(0,0,0)`.  In particular no version string makes the key
function fail.  (The frozen claim also sent wrong-arity strings to `(0,0,0)`;
they keep their own arity instead, see the counterexample.) -/
theorem c4_version_key_lenient (m : ModRecord) :
    ((∀ p ∈ splitOnChar '.' m.version, pyIntChars p ≠ Option.none) →
      version_key m = (splitOnChar '.' m.version).map (fun p => (pyIntChars p).getD 0) ∧
      (version_key m).length = (splitOnChar '.' m.version).length) ∧
    ((∃ p ∈ splitOnChar '.' m.version, pyIntChars p = Option.none) →
      version_key m = [0, 0, 0]) := by
  constructor
  · intro h
    have h2 := parseParts_some _ h
    rw [version_key, h2]
    simp
  · intro h
    rw [version_key, parseParts_none _ h]

/-- Witness for C4: `"5.4.2333"` parses to its integer tuple, `"1.x"` falls
to `(0,0,0)`. -/
theorem c4_version_key_witness :
    version_key ⟨[], [], "5.4.2333".toList, [], [], []⟩ =
      (splitOnChar '.' (ModRecord.version ⟨[], [], "5.4.2333".toList, [], [], []⟩)).map
        (fun p => (pyIntChars p).getD 0) ∧
    version_key ⟨[], [], "1.x".toList, [], [], []⟩ = [0, 0, 0] :=
  ⟨((c4_version_key_lenient ⟨[], [], "5.4.2333".toList, [], [], []⟩).1 (by decide)).1,
    (c4_version_key_lenient ⟨[], [], "1.x".toList, [], [], []⟩).2 (by decide)⟩

/-- Counterexample for C4 as frozen: the two-component version `"1.2"` is a
wrong-arity parse, yet `version_key` returns the 2-tuple `(1, 2)` rather than
the claimed `(0,0,0)` substitute. -/
theorem c4_version_key_cex :
    version_key ⟨[], [], "1.2".toList, [], [], []⟩ ≠ [0, 0, 0] ∧
    (version_key ⟨[], [], "1.2".toList, [], [], []⟩).length ≠ 3 := by decide

theorem findHeaderRest_eq_none (ls : List (List Char))
    (h : ∀ l ∈ ls, isHeaderLine l = false) : findHeaderRest ls = Option.none := by
  induction ls with
  | nil => rfl
  | cons l ls ih =>
    rw [findHeaderRest, if_neg (by simp [h l (List.mem_cons_self l ls)])]
    exact ih (fun l2 hl2 => h l2 (List.mem_cons_of_mem l hl2))

/-- Claim C7: when no physical line of the input text starts (after
stripping) with `Author,Mod Name,Version`, the snapshot reader returns the
empty mapping; being a total Lean function, the model also raises nothing
(the warning print is I/O outside the model). -/
theorem c7_missing_header (text : List Char)
    (h : ∀ l ∈ splitLinesKeepNl text, isHeaderLine l = false) :
    load_csv_for_comparison text = [] := by
  rw [load_csv_for_comparison, findHeaderRest_eq_none _ h]

/-- Witness for C7: a two-line text without the header marker loads to the
empty mapping. -/
theorem c7_missing_header_witness :
    load_csv_for_comparison "hello,world\nAuthor Mod Name Version\n".toList = [] :=
  c7_missing_header _ (by decide)

/-- Claim C6: the diff sets of the comparison engine are exactly the claimed
set-algebra, and a version-change triple is emitted exactly for common keys
with differing `Version` fields. -/
theorem c6_compare_sets (m1 m2 : List (List Char × CsvRow)) :
    addedKeys m1 m2 = dictKeys m1 \ dictKeys m2 ∧
    removedKeys m1 m2 = dictKeys m2 \ dictKeys m1 ∧
    commonKeys m1 m2 = dictKeys m1 ∩ dictKeys m2 ∧
    addedKeys m1 m2 ∩ removedKeys m1 m2 = ∅ ∧
    addedKeys m1 m2 ∪ commonKeys m1 m2 ∪ removedKeys m1 m2 =
      dictKeys m1 ∪ dictKeys m2 ∧
    ∀ k o n, (k, o, n) ∈ updatedTriples m1 m2 ↔
      k ∈ commonKeys m1 m2 ∧ versionField m1 k ≠ versionField m2 k ∧
        o = versionField m2 k ∧ n = versionField m1 k := by
  refine ⟨rfl, rfl, rfl, ?_, ?_, ?_⟩
  · ext a
    simp only [addedKeys, removedKeys, Finset.mem_inter, Finset.mem_sdiff,
      Finset.not_mem_empty, iff_false]
    tauto
  · ext a
    simp only [addedKeys, removedKeys, commonKeys, Finset.mem_union,
      Finset.mem_inter, Finset.mem_sdiff]
    tauto
  · intro k o n
    constructor
    · intro h
      rw [updatedTriples, Finset.mem_image] at h
      obtain ⟨k2, hk2, heq⟩ := h
      obtain ⟨hk, ho, hn⟩ : k2 = k ∧ versionField m2 k2 = o ∧ versionField m1 k2 = n := by
        simpa [Prod.ext_iff] using heq
      subst hk
      rw [updatedKeys, Finset.mem_filter] at hk2
      exact ⟨hk2.1, hk2.2, ho.symm, hn.symm⟩
    · rintro ⟨hc, hne, rfl, rfl⟩
      rw [updatedTriples, Finset.mem_image]
      exact ⟨k, Finset.mem_filter.mpr ⟨hc, hne⟩, rfl⟩

theorem calcStats_newest (l : List ModRecord) (p n : List Char) :
    (calculate_statistics l p n).newest_mods = (l.insertionSort rVerDesc).take 5 := rfl

theorem calcStats_oldest (l : List ModRecord) (p n : List Char) :
    (calculate_statistics l p n).oldest_mods =
      ((l.insertionSort rVerDesc).drop ((l.insertionSort rVerDesc).length - 5)).reverse :=
  rfl

theorem calcStats_top (l : List ModRecord) (p n : List Char) :
    (calculate_statistics l p n).top_authors =
      ((authorCounts l).insertionSort rCountDesc).take 5 := rfl

/-- Claim C10: newest-five and oldest-five are overlapping slices of the one
descending sort — with at most five records the oldest list is the reversed
newest list, and with six to nine records some record lies in both lists. -/
theorem c10_newest_oldest_overlap (l : List ModRecord) (profile now : List Char) :
    (l.length ≤ 5 →
      (calculate_statistics l profile now).oldest_mods =
        (calculate_statistics l profile now).newest_mods.reverse) ∧
    (5 < l.length → l.length < 10 →
      ∃ m, m ∈ (calculate_statistics l profile now).newest_mods ∧
        m ∈ (calculate_statistics l profile now).oldest_mods) := by
  have hlen : (l.insertionSort rVerDesc).length = l.length :=
    (List.perm_insertionSort rVerDesc l).length_eq
  constructor
  · intro h5
    rw [calcStats_oldest, calcStats_newest,
      Nat.sub_eq_zero_of_le (by omega : (l.insertionSort rVerDesc).length ≤ 5),
      List.drop_zero, List.take_of_length_le (by omega)]
  · intro h5 h10
    set d := l.insertionSort rVerDesc with hd
    have h4 : 4 < d.length := by omega
    have hlt2 : 9 - l.length < (d.drop (d.length - 5)).length := by
      rw [List.length_drop]; omega
    refine ⟨(d.drop (d.length - 5)).get ⟨9 - l.length, hlt2⟩, ?_, ?_⟩
    · have e1 : (d.drop (d.length - 5)).get ⟨9 - l.length, hlt2⟩ = d[4] := by
        rw [List.get_eq_getElem, List.getElem_drop]
        congr 1
        show d.length - 5 + (9 - l.length) = 4
        omega
      rw [calcStats_newest, ← hd, e1]
      have hlt : 4 < (d.take 5).length := by
        rw [List.length_take]; omega
      have e2 : (d.take 5)[4] = d[4] := List.getElem_take ..
      rw [← e2]
      exact List.getElem_mem hlt
    · rw [calcStats_oldest, ← hd, List.mem_reverse]
      exact List.get_mem _ _ _

/-- Witness for C10: a three-record profile has its oldest list equal to the
reversed newest list; a six-record profile shares a record between the two. -/
theorem c10_newest_oldest_overlap_witness :
    ((calculate_statistics
        [⟨"n1".toList, "a".toList, "1.0.0".toList, [], "Yes".toList, []⟩,
          ⟨"n2".toList, "a".toList, "2.0.0".toList, [], "No".toList, []⟩,
          ⟨"n3".toList, "b".toList, "3.0.0".toList, [], "Yes".toList, []⟩]
        "p".toList "d".toList).oldest_mods =
      (calculate_statistics
        [⟨"n1".toList, "a".toList, "1.0.0".toList, [], "Yes".toList, []⟩,
          ⟨"n2".toList, "a".toList, "2.0.0".toList, [], "No".toList, []⟩,
          ⟨"n3".toList, "b".toList, "3.0.0".toList, [], "Yes".toList, []⟩]
        "p".toList "d".toList).newest_mods.reverse) ∧
    ∃ m, m ∈ (calculate_statistics
        [⟨"n1".toList, "a".toList, "1.0.0".toList, [], "Yes".toList, []⟩,
          ⟨"n2".toList, "a".toList, "2.0.0".toList, [], "No".toList, []⟩,
          ⟨"n3".toList, "b".toList, "3.0.0".toList, [], "Yes".toList, []⟩,
          ⟨"n4".toList, "b".toList, "4.0.0".toList, [], "Yes".toList, []⟩,
          ⟨"n5".toList, "c".toList, "5.0.0".toList, [], "Yes".toList, []⟩,
          ⟨"n6".toList, "c".toList, "6.0.0".toList, [], "Yes".toList, []⟩]
        "p".toList "d".toList).newest_mods ∧
      m ∈ (calculate_statistics
        [⟨"n1".toList, "a".toList, "1.0.0".toList, [], "Yes".toList, []⟩,
          ⟨"n2".toList, "a".toList, "2.0.0".toList, [], "No".toList, []⟩,
          ⟨"n3".toList, "b".toList, "3.0.0".toList, [], "Yes".toList, []⟩,
          ⟨"n4".toList, "b".toList, "4.0.0".toList, [], "Yes".toList, []⟩,
          ⟨"n5".toList, "c".toList, "5.0.0".toList, [], "Yes".toList, []⟩,
          ⟨"n6".toList, "c".toList, "6.0.0".toList, [], "Yes".toList, []⟩]
        "p".toList "d".toList).oldest_mods :=
  ⟨(c10_newest_oldest_overlap _ "p".toList "d".toList).1 (by decide),
    (c10_newest_oldest_overlap _ "p".toList "d".toList).2 (by decide) (by decide)⟩

instance : IsTotal ModRecord rVerAsc := ⟨fun _ _ => listLe_total _ _⟩

instance : IsTrans ModRecord rVerAsc := ⟨fun _ _ _ => listLe_trans _ _ _⟩

instance : IsTotal ModRecord rVerDesc := ⟨fun _ _ => listLe_total _ _⟩

instance : IsTrans ModRecord rVerDesc := ⟨fun _ _ _ h1 h2 => listLe_trans _ _ _ h2 h1⟩

instance : IsTotal (List Char × Nat) rCountDesc := ⟨fun x y => Nat.le_total y.2 x.2⟩

instance : IsTrans (List Char × Nat) rCountDesc :=
  ⟨fun _ _ _ h1 h2 => Nat.le_trans h2 h1⟩

theorem sortedAsc_eq_reverse_sortedDesc (l : List ModRecord)
    (h : l.Pairwise fun a b => version_key a ≠ version_key b) :
    l.insertionSort rVerAsc = (l.insertionSort rVerDesc).reverse := by
  have pasc := List.perm_insertionSort rVerAsc l
  have pdesc := List.perm_insertionSort rVerDesc l
  have hperm : (l.insertionSort rVerAsc).Perm (l.insertionSort rVerDesc).reverse :=
    pasc.trans (pdesc.symm.trans (List.reverse_perm _).symm)
  have hs1 : (l.insertionSort rVerAsc).Pairwise rVerAsc :=
    List.sorted_insertionSort rVerAsc l
  have hs2d : (l.insertionSort rVerDesc).Pairwise rVerDesc :=
    List.sorted_insertionSort rVerDesc l
  have hs2 : ((l.insertionSort rVerDesc).reverse).Pairwise rVerAsc := by
    rw [List.pairwise_reverse]; exact hs2d
  have hsym : Symmetric (fun a b : ModRecord => version_key a ≠ version_key b) :=
    fun _ _ hab => fun he => hab he.symm
  have hne1 : (l.insertionSort rVerAsc).Pairwise
      (fun a b => version_key a ≠ version_key b) :=
    (pasc.pairwise_iff (fun h2 => hsym h2)).mpr h
  have hne2 : ((l.insertionSort rVerDesc).reverse).Pairwise
      (fun a b => version_key a ≠ version_key b) :=
    (hperm.pairwise_iff (fun h2 => hsym h2)).mp hne1
  haveI : IsAntisymm ModRecord
      (fun a b => rVerAsc a b ∧ version_key a ≠ version_key b) :=
    ⟨fun _ _ h1 h2 => absurd (listLe_antisymm _ _ h1.1 h2.1) h1.2⟩
  exact List.eq_of_perm_of_sorted hperm (hs1.and hne1) (hs2.and hne2)

theorem reverse_take_eq_drop_reverse (d : List ModRecord) (n : Nat) :
    d.reverse.take n = (d.drop (d.length - n)).reverse := by
  rcases le_or_lt n d.length with h | h
  · conv_lhs => rw [← List.take_append_drop (d.length - n) d]
    rw [List.reverse_append]
    apply List.take_left'
    rw [List.length_reverse, List.length_drop]
    omega
  · rw [List.take_of_length_le (by rw [List.length_reverse]; omega),
      Nat.sub_eq_zero_of_le (by omega), List.drop_zero]

/-- Claim C5 (amended): when the parsed version keys of the records are
pairwise distinct, the first five of the ascending sort coincide with the
reversed last five of the descending sort, i.e. with the oldest-five list of
`calculate_statistics`.  (With tied keys the two stable sorts order the tied
records oppositely and the lists differ, see the counterexample.) -/
theorem c5_oldest_equiv (l : List ModRecord) (profile now : List Char)
    (h : l.Pairwise fun a b => version_key a ≠ version_key b) :
    specOldestFive l = (calculate_statistics l profile now).oldest_mods := by
  rw [calcStats_oldest, specOldestFive, sortedAsc_eq_reverse_sortedDesc l h,
    reverse_take_eq_drop_reverse]

/-- Witness for C5: three records with distinct versions. -/
theorem c5_oldest_equiv_witness :
    specOldestFive
        [⟨"n1".toList, "a".toList, "1.0.0".toList, [], "Yes".toList, []⟩,
          ⟨"n2".toList, "a".toList, "2.0.0".toList, [], "No".toList, []⟩,
          ⟨"n3".toList, "b".toList, "3.0.0".toList, [], "Yes".toList, []⟩] =
      (calculate_statistics
        [⟨"n1".toList, "a".toList, "1.0.0".toList, [], "Yes".toList, []⟩,
          ⟨"n2".toList, "a".toList, "2.0.0".toList, [], "No".toList, []⟩,
          ⟨"n3".toList, "b".toList, "3.0.0".toList, [], "Yes".toList, []⟩]
        "p".toList "d".toList).oldest_mods :=
  c5_oldest_equiv _ "p".toList "d".toList (by decide)

/-- Counterexample for C5 as frozen: two records sharing the version tuple
(1,0,0) — the ascending-sort description keeps them in original order, the
descending-slice implementation reverses them, so the two ordered lists
differ. -/
theorem c5_oldest_cex :
    specOldestFive
        [⟨"A".toList, "a".toList, "1.0.0".toList, [], "Yes".toList, []⟩,
          ⟨"B".toList, "b".toList, "1.0.0".toList, [], "Yes".toList, []⟩] ≠
      (calculate_statistics
        [⟨"A".toList, "a".toList, "1.0.0".toList, [], "Yes".toList, []⟩,
          ⟨"B".toList, "b".toList, "1.0.0".toList, [], "Yes".toList, []⟩]
        "p".toList "d".toList).oldest_mods := by decide

theorem orderedInsert_pairwise {α : Type} {r : α → α → Prop} [DecidableRel r]
    {P : α → α → Prop} {x : α} :
    ∀ {l : List α}, l.Pairwise P → (∀ c ∈ l, P x c) → (∀ b ∈ l, ¬ r x b → P b x) →
      (l.orderedInsert r x).Pairwise P := by
  intro l
  induction l with
  | nil => intro _ _ _; exact List.pairwise_singleton P x
  | cons b t ih =>
    intro hl h1 h2
    rw [List.orderedInsert]
    by_cases hr : r x b
    · rw [if_pos hr]
      exact List.pairwise_cons.mpr ⟨h1, hl⟩
    · rw [if_neg hr]
      refine List.pairwise_cons.mpr ⟨?_, ?_⟩
      · intro y hy
        rcases (List.mem_orderedInsert r).mp hy with rfl | hy2
        · exact h2 b (List.mem_cons_self b t) hr
        · exact (List.pairwise_cons.mp hl).1 y hy2
      · exact ih (List.pairwise_cons.mp hl).2
          (fun c hc => h1 c (List.mem_cons_of_mem b hc))
          (fun c hc hx => h2 c (List.mem_cons_of_mem b hc) hx)

/-- Stability of insertion sort: any relation `Q` holding pairwise along the
input keeps holding in the output between elements the sort is not forced to
strictly separate. -/
theorem insertionSort_pairwise_stable {α : Type} {r : α → α → Prop} [DecidableRel r]
    {Q : α → α → Prop} :
    ∀ {l : List α}, l.Pairwise Q →
      (l.insertionSort r).Pairwise (fun a b => ¬ r b a ∨ Q a b) := by
  intro l
  induction l with
  | nil => intro _; exact List.Pairwise.nil
  | cons x t ih =>
    intro hl
    rw [List.insertionSort]
    refine orderedInsert_pairwise (ih (List.pairwise_cons.mp hl).2) ?_ ?_
    · intro c hc
      have hc2 : c ∈ t := (List.perm_insertionSort r t).mem_iff.mp hc
      exact Or.inr ((List.pairwise_cons.mp hl).1 c hc2)
    · intro b _ hnrb
      exact Or.inl hnrb

theorem bumpCount_keys (m : List (List Char × Nat)) (a : List Char) :
    (bumpCount m a).map Prod.fst =
      if a ∈ m.map Prod.fst then m.map Prod.fst else m.map Prod.fst ++ [a] := by
  induction m with
  | nil => simp [bumpCount]
  | cons e t ih =>
    obtain ⟨b, n⟩ := e
    rw [bumpCount]
    by_cases h : a = b
    · subst h
      simp
    · rw [if_neg h]
      by_cases h2 : a ∈ t.map Prod.fst
      · have hc : a ∈ ((b, n) :: t).map Prod.fst := by simp [h2]
        rw [if_pos hc]
        simp [ih, h2]
      · have hc : a ∉ ((b, n) :: t).map Prod.fst := by simp [h, h2]
        rw [if_neg hc]
        simp [ih, h2]

theorem countVal_bump_self (m : List (List Char × Nat)) (a : List Char) :
    countVal (bumpCount m a) a = countVal m a + 1 := by
  induction m with
  | nil => simp [bumpCount, countVal, List.find?]
  | cons e t ih =>
    obtain ⟨b, n⟩ := e
    rw [bumpCount]
    by_cases h : a = b
    · subst h
      simp [countVal, List.find?]
    · rw [if_neg h]
      have hb : decide (b = a) = false := by simp [Ne.symm h]
      simp only [countVal, List.find?, hb] at ih ⊢
      exact ih

theorem countVal_bump_other (m : List (List Char × Nat)) (a x : List Char)
    (h : x ≠ a) : countVal (bumpCount m a) x = countVal m x := by
  induction m with
  | nil => simp [bumpCount, countVal, List.find?, Ne.symm h]
  | cons e t ih =>
    obtain ⟨b, n⟩ := e
    rw [bumpCount]
    by_cases h2 : a = b
    · subst h2
      have hb : decide (a = x) = false := by simp [Ne.symm h]
      simp [countVal, List.find?, hb]
    · rw [if_neg h2]
      by_cases h3 : b = x
      · subst h3
        simp [countVal, List.find?]
      · have hb : decide (b = x) = false := by simp [h3]
        simp only [countVal, List.find?, hb] at ih ⊢
        exact ih

theorem countVal_foldl (as : List (List Char)) :
    ∀ (m : List (List Char × Nat)) x,
      countVal (as.foldl bumpCount m) x = countVal m x + as.count x := by
  induction as with
  | nil => intro m x; simp
  | cons a t ih =>
    intro m x
    rw [List.foldl_cons, ih]
    by_cases h : x = a
    · subst h
      rw [countVal_bump_self, List.count_cons_self]
      omega
    · rw [countVal_bump_other m a x h, List.count_cons_of_ne h]

theorem countVal_of_mem :
    ∀ (m : List (List Char × Nat)), (m.map Prod.fst).Nodup →
      ∀ e ∈ m, countVal m e.1 = e.2 := by
  intro m
  induction m with
  | nil => intro _ e he; simp at he
  | cons f t ih =>
    intro hn e he
    rcases List.mem_cons.mp he with rfl | he2
    · simp [countVal, List.find?]
    · have hne : f.1 ≠ e.1 := by
        intro hc
        have : e.1 ∈ t.map Prod.fst := List.mem_map_of_mem Prod.fst he2
        rw [← hc] at this
        exact (List.nodup_cons.mp (by simpa using hn)).1 this
      have hb : decide (f.1 = e.1) = false := by simp [hne]
      simp only [countVal, List.find?, hb]
      exact ih (List.nodup_cons.mp (by simpa using hn)).2 e he2

theorem mem_keys_foldl (as : List (List Char)) :
    ∀ (m : List (List Char × Nat)) x,
      x ∈ (as.foldl bumpCount m).map Prod.fst ↔ x ∈ m.map Prod.fst ∨ x ∈ as := by
  induction as with
  | nil => intro m x; simp
  | cons a t ih =>
    intro m x
    rw [List.foldl_cons, ih, bumpCount_keys]
    by_cases h : a ∈ m.map Prod.fst
    · rw [if_pos h]
      constructor
      · rintro (hx | hx)
        · exact Or.inl hx
        · exact Or.inr (List.mem_cons_of_mem a hx)
      · rintro (hx | hx)
        · exact Or.inl hx
        · rcases List.mem_cons.mp hx with rfl | hx2
          · exact Or.inl h
          · exact Or.inr hx2
    · rw [if_neg h]
      constructor
      · rintro (hx | hx)
        · rcases List.mem_append.mp hx with hx2 | hx2
          · exact Or.inl hx2
          · exact Or.inr (List.mem_cons.mpr (Or.inl (List.mem_singleton.mp hx2)))
        · exact Or.inr (List.mem_cons_of_mem a hx)
      · rintro (hx | hx)
        · exact Or.inl (List.mem_append.mpr (Or.inl hx))
        · rcases List.mem_cons.mp hx with rfl | hx2
          · exact Or.inl (List.mem_append.mpr (Or.inr (List.mem_singleton.mpr rfl)))
          · exact Or.inr hx2

theorem nodup_keys_foldl (as : List (List Char)) :
    ∀ (m : List (List Char × Nat)), (m.map Prod.fst).Nodup →
      ((as.foldl bumpCount m).map Prod.fst).Nodup := by
  induction as with
  | nil => intro m hm; simpa using hm
  | cons a t ih =>
    intro m hm
    rw [List.foldl_cons]
    refine ih (bumpCount m a) ?_
    rw [bumpCount_keys]
    by_cases h : a ∈ m.map Prod.fst
    · rw [if_pos h]; exact hm
    · rw [if_neg h]
      rw [List.nodup_append]
      exact ⟨hm, List.nodup_singleton a, fun x hx hx2 => h ((List.mem_singleton.mp hx2) ▸ hx)⟩

theorem firstIdx_append_left (p q : List (List Char)) (k : List Char) (h : k ∈ p) :
    firstIdx (p ++ q) k = firstIdx p k := by
  induction p with
  | nil => simp at h
  | cons b t ih =>
    rw [List.cons_append, firstIdx, firstIdx]
    by_cases h2 : k = b
    · rw [if_pos h2, if_pos h2]
    · rw [if_neg h2, if_neg h2, ih (by rcases List.mem_cons.mp h with hc | hc; exact absurd hc h2; exact hc)]

theorem firstIdx_lt_length (p : List (List Char)) (k : List Char) (h : k ∈ p) :
    firstIdx p k < p.length := by
  induction p with
  | nil => simp at h
  | cons b t ih =>
    rw [firstIdx, List.length_cons]
    by_cases h2 : k = b
    · rw [if_pos h2]; omega
    · rw [if_neg h2]
      have := ih (by rcases List.mem_cons.mp h with hc | hc; exact absurd hc h2; exact hc)
      omega

theorem firstIdx_append_right (p q : List (List Char)) (a : List Char) (h : a ∉ p) :
    firstIdx (p ++ q) a = p.length + firstIdx q a := by
  induction p with
  | nil => simp [firstIdx]
  | cons b t ih =>
    have hab : a ≠ b := fun hc => h (List.mem_cons.mpr (Or.inl hc))
    rw [List.cons_append, firstIdx, if_neg hab, List.length_cons,
      ih (fun hc => h (List.mem_cons_of_mem b hc))]
    omega

theorem keys_pairwise_foldl (full : List (List Char)) :
    ∀ (rest p : List (List Char)) (m : List (List Char × Nat)),
      full = p ++ rest →
      (∀ x, x ∈ m.map Prod.fst ↔ x ∈ p) →
      (m.map Prod.fst).Pairwise (fun x y => firstIdx full x < firstIdx full y) →
      ((rest.foldl bumpCount m).map Prod.fst).Pairwise
        (fun x y => firstIdx full x < firstIdx full y) := by
  intro rest
  induction rest with
  | nil => intro p m _ _ hp; simpa using hp
  | cons a t ih =>
    intro p m hfull hmem hp
    rw [List.foldl_cons]
    refine ih (p ++ [a]) (bumpCount m a) ?_ ?_ ?_
    · rw [hfull, List.append_assoc]
      rfl
    · intro x
      rw [bumpCount_keys]
      by_cases h : a ∈ m.map Prod.fst
      · rw [if_pos h]
        rw [hmem x]
        constructor
        · exact fun hx => List.mem_append.mpr (Or.inl hx)
        · intro hx
          rcases List.mem_append.mp hx with hx2 | hx2
          · exact hx2
          · exact (List.mem_singleton.mp hx2) ▸ ((hmem a).mp h)
      · rw [if_neg h]
        constructor
        · intro hx
          rcases List.mem_append.mp hx with hx2 | hx2
          · exact List.mem_append.mpr (Or.inl ((hmem x).mp hx2))
          · exact List.mem_append.mpr (Or.inr hx2)
        · intro hx
          rcases List.mem_append.mp hx with hx2 | hx2
          · exact List.mem_append.mpr (Or.inl ((hmem x).mpr hx2))
          · exact List.mem_append.mpr (Or.inr hx2)
    · rw [bumpCount_keys]
      by_cases h : a ∈ m.map Prod.fst
      · rw [if_pos h]; exact hp
      · rw [if_neg h]
        rw [List.pairwise_append]
        refine ⟨hp, List.pairwise_singleton _ a, ?_⟩
        intro x hx y hy
        have hya : y = a := List.mem_singleton.mp hy
        subst hya
        have hxp : x ∈ p := (hmem x).mp hx
        have hap : y ∉ p := fun hc => h ((hmem y).mpr hc)
        have h1 : firstIdx full x < p.length := by
          rw [hfull, firstIdx_append_left p _ x hxp]
          exact firstIdx_lt_length p x hxp
        have h2 : firstIdx full y = p.length + firstIdx (y :: t) y := by
          rw [hfull]
          exact firstIdx_append_right p _ y hap
        rw [h2, firstIdx, if_pos rfl]
        omega

theorem authorCounts_eq_foldl (l : List ModRecord) :
    authorCounts l = (l.map ModRecord.author).foldl bumpCount [] := by
  rw [authorCounts, List.foldl_map]

/-- Claim C8: the top-authors list has length `min 5 (#distinct authors)`,
its entries carry each author together with the exact number of
records, counts are non-increasing along the list, and authors with equal
counts appear in the order of their first occurrence in the input. -/
theorem c8_top_authors (l : List ModRecord) (profile now : List Char) :
    (calculate_statistics l profile now).top_authors.length =
      min 5 ((l.map ModRecord.author).toFinset.card) ∧
    (calculate_statistics l profile now).top_authors.Pairwise
      (fun e₁ e₂ => e₂.2 ≤ e₁.2) ∧
    (∀ e ∈ (calculate_statistics l profile now).top_authors,
      e.2 = (l.map ModRecord.author).count e.1) ∧
    (calculate_statistics l profile now).top_authors.Pairwise
      (fun e₁ e₂ => e₁.2 = e₂.2 →
        firstIdx (l.map ModRecord.author) e₁.1 < firstIdx (l.map ModRecord.author) e₂.1) := by
  rw [calcStats_top]
  set as := l.map ModRecord.author with has
  have hcounts : authorCounts l = as.foldl bumpCount [] := authorCounts_eq_foldl l
  have hnodup : ((authorCounts l).map Prod.fst).Nodup := by
    rw [hcounts]
    exact nodup_keys_foldl as [] (by simp)
  have hmem : ∀ x, x ∈ (authorCounts l).map Prod.fst ↔ x ∈ as := by
    intro x
    rw [hcounts, mem_keys_foldl]
    simp
  have hperm := List.perm_insertionSort rCountDesc (authorCounts l)
  refine ⟨?_, ?_, ?_, ?_⟩
  · rw [List.length_take, hperm.length_eq]
    congr 1
    have h1 : (authorCounts l).length = ((authorCounts l).map Prod.fst).length := by
      rw [List.length_map]
    rw [h1, ← List.toFinset_card_of_nodup hnodup]
    congr 1
    ext x
    simp only [List.mem_toFinset]
    exact hmem x
  · exact (List.sorted_insertionSort rCountDesc (authorCounts l)).sublist
      (List.take_sublist 5 _)
  · intro e he
    have he2 : e ∈ authorCounts l :=
      hperm.mem_iff.mp (List.mem_of_mem_take he)
    have hv : countVal (authorCounts l) e.1 = e.2 := countVal_of_mem _ hnodup e he2
    rw [← hv, hcounts, countVal_foldl]
    simp [countVal]
  · have hkp : ((authorCounts l).map Prod.fst).Pairwise
        (fun x y => firstIdx as x < firstIdx as y) := by
      rw [hcounts]
      exact keys_pairwise_foldl as as [] [] (by simp) (by simp) List.Pairwise.nil
    have hep : (authorCounts l).Pairwise
        (fun e₁ e₂ => firstIdx as e₁.1 < firstIdx as e₂.1) :=
      hkp.of_map Prod.fst (fun _ _ h => h)
    have hst := @insertionSort_pairwise_stable _ rCountDesc _ _ _ hep
    have hsub := hst.sublist (List.take_sublist 5 _)
    refine hsub.imp ?_
    intro e₁ e₂ h12 htie
    rcases h12 with h12 | h12
    · exact absurd (le_of_eq htie) h12
    · exact h12

theorem isDigit_ne (c : Char) (h : c.isDigit = true) :
    c ≠ ',' ∧ c ≠ '"' ∧ c ≠ '\r' ∧ c ≠ '\n' ∧ c ≠ 'V' := by
  refine ⟨?_, ?_, ?_, ?_, ?_⟩ <;> (rintro rfl; exact absurd h (by decide))

theorem noCRLF_of_versionChars (s : List Char) (h : versionChars s) : noCRLF s := by
  intro c hc
  rcases h c hc with hd | hd
  · exact ⟨(isDigit_ne c hd).2.2.1, (isDigit_ne c hd).2.2.2.1⟩
  · subst hd; exact ⟨by decide, by decide⟩

theorem needsQuote_eq_false (s : List Char)
    (h : ∀ c ∈ s, c ≠ ',' ∧ c ≠ '"' ∧ c ≠ '\r' ∧ c ≠ '\n') : needsQuote s = false := by
  rw [needsQuote, List.any_eq_false]
  intro c hc
  obtain ⟨h1, h2, h3, h4⟩ := h c hc
  simp [h1, h2, h3, h4]

theorem needsQuote_false_props (s : List Char) (h : needsQuote s = false) :
    ∀ c ∈ s, c ≠ ',' ∧ c ≠ '"' ∧ c ≠ '\r' ∧ c ≠ '\n' := by
  rw [needsQuote, List.any_eq_false] at h
  intro c hc
  have h2 := h c hc
  simp only [Bool.or_eq_true, decide_eq_true_eq, not_or] at h2
  exact ⟨h2.1.1.1, h2.1.1.2, h2.1.2, h2.2⟩

theorem versionChars_needsQuote (s : List Char) (h : versionChars s) :
    needsQuote s = false := by
  refine needsQuote_eq_false s (fun c hc => ?_)
  rcases h c hc with hd | hd
  · obtain ⟨h1, h2, h3, h4, _⟩ := isDigit_ne c hd
    exact ⟨h1, h2, h3, h4⟩
  · subst hd
    exact ⟨by decide, by decide, by decide, by decide⟩

theorem noCRLF_natChars_mods (n : Nat) : noCRLF (natChars n ++ " mods".toList) := by
  intro c hc
  rcases List.mem_append.mp hc with h1 | h1
  · have hd := natChars_digit n c h1
    exact ⟨(isDigit_ne c hd).2.2.1, (isDigit_ne c hd).2.2.2.1⟩
  · fin_cases h1 <;> exact ⟨by decide, by decide⟩

theorem mem_csvCell (s : List Char) (c : Char) (hc : c ∈ csvCell s) :
    c ∈ s ∨ c = '"' := by
  rw [csvCell] at hc
  by_cases hq : needsQuote s
  · rw [if_pos hq] at hc
    rcases List.mem_cons.mp hc with rfl | hc2
    · exact Or.inr rfl
    · rcases List.mem_append.mp hc2 with hc3 | hc3
      · simp only [escQuotes] at hc3
        rcases List.mem_flatMap.mp hc3 with ⟨a, ha, hfa⟩
        by_cases hqa : a = '"'
        · rw [if_pos hqa] at hfa
          rcases List.mem_cons.mp hfa with rfl | hfa2
          · exact Or.inr rfl
          · exact Or.inr (List.mem_singleton.mp hfa2)
        · rw [if_neg hqa] at hfa
          exact Or.inl ((List.mem_singleton.mp hfa) ▸ ha)
      · exact Or.inr (List.mem_singleton.mp hc3)
  · rw [if_neg hq] at hc
    exact Or.inl hc

theorem noNl_csvCell (s : List Char) (c : Char) (h : noCRLF s) (hc : c ∈ csvCell s) :
    c ≠ '\n' := by
  rcases mem_csvCell s c hc with h1 | h1
  · exact (h c h1).2
  · subst h1; decide

theorem noNl_csvJoinCells :
    ∀ (cells : List (List Char)), (∀ x ∈ cells, noCRLF x) →
      ∀ c ∈ csvJoinCells cells, c ≠ '\n'
  | [], _, c, hc => by simp [csvJoinCells] at hc
  | [x], h, c, hc => by
    rw [csvJoinCells] at hc
    exact noNl_csvCell x c (h x (List.mem_singleton.mpr rfl)) hc
  | x :: y :: rest, h, c, hc => by
    rw [csvJoinCells] at hc
    rcases List.mem_append.mp hc with h1 | h1
    · exact noNl_csvCell x c (h x (List.mem_cons_self x _)) h1
    · rcases List.mem_cons.mp h1 with rfl | h2
      · decide
      · exact noNl_csvJoinCells (y :: rest)
          (fun z hz => h z (List.mem_cons_of_mem x hz)) c h2

theorem csvLine_eq :
    ∀ (cells : List (List Char)), cells ≠ [[]] →
      csvLine cells = csvJoinCells cells ++ ['\r', '\n']
  | [], _ => rfl
  | (_ :: _) :: _, _ => rfl
  | [] :: _ :: _, _ => rfl
  | [[]], h => absurd rfl h

theorem csvLine_shape (cells : List (List Char)) (h : ∀ x ∈ cells, noCRLF x) :
    ∃ b, csvLine cells = b ++ ['\r', '\n'] ∧ ∀ c ∈ b, c ≠ '\n' := by
  by_cases hc : cells = [[]]
  · subst hc
    exact ⟨['"', '"'], rfl, by decide⟩
  · exact ⟨csvJoinCells cells, csvLine_eq cells hc, noNl_csvJoinCells cells h⟩

theorem splitLines_cons (a rest : List Char) (h : ∀ c ∈ a, c ≠ '\n') :
    splitLinesKeepNl (a ++ '\n' :: rest) = (a ++ ['\n']) :: splitLinesKeepNl rest := by
  induction a with
  | nil => simp [splitLinesKeepNl]
  | cons c cs ih =>
    have hc : c ≠ '\n' := h c (List.mem_cons_self c cs)
    rw [List.cons_append, splitLinesKeepNl, if_neg hc,
      ih (fun x hx => h x (List.mem_cons_of_mem c hx))]
    rfl

theorem splitLines_flatten :
    ∀ (ls : List (List Char)),
      (∀ l ∈ ls, ∃ b, l = b ++ ['\r', '\n'] ∧ ∀ c ∈ b, c ≠ '\n') →
      splitLinesKeepNl ls.flatten = ls := by
  intro ls
  induction ls with
  | nil => intro _; rfl
  | cons l rest ih =>
    intro h
    obtain ⟨b, rfl, hb⟩ := h _ (List.mem_cons_self _ rest)
    have hb2 : ∀ c ∈ b ++ ['\r'], c ≠ '\n' := by
      intro c hc
      rcases List.mem_append.mp hc with h1 | h1
      · exact hb c h1
      · rw [List.mem_singleton.mp h1]; decide
    have hsplit : b ++ ['\r', '\n'] ++ rest.flatten =
        (b ++ ['\r']) ++ '\n' :: rest.flatten := by
      simp [List.append_assoc]
    rw [List.flatten_cons, hsplit, splitLines_cons _ _ hb2,
      ih (fun l2 hl2 => h l2 (List.mem_cons_of_mem _ hl2))]
    simp [List.append_assoc]

theorem dropEol_append (x : List Char) : dropEol (x ++ ['\r', '\n']) = x := by
  have hrev : (x ++ ['\r', '\n']).reverse = '\n' :: '\r' :: x.reverse := by
    simp
  rw [dropEol, hrev]
  simp

theorem noCRLF_natChars (n : Nat) : noCRLF (natChars n) := by
  intro c hc
  have hd := natChars_digit n c hc
  exact ⟨(isDigit_ne c hd).2.2.1, (isDigit_ne c hd).2.2.2.1⟩

theorem startsChars_iff (s p : List Char) :
    startsChars s p = true ↔ ∃ t, s = p ++ t := by
  induction p generalizing s with
  | nil =>
    constructor
    · intro _; exact ⟨s, rfl⟩
    · intro _; cases s <;> rfl
  | cons pc ps ih =>
    cases s with
    | nil =>
      constructor
      · intro h; exact absurd h (by simp [startsChars])
      · rintro ⟨t, ht⟩; exact absurd ht (by simp)
    | cons sc ss =>
      rw [startsChars]
      constructor
      · intro h
        rw [Bool.and_eq_true] at h
        obtain ⟨h1, h2⟩ := h
        obtain ⟨t, rfl⟩ := (ih ss).mp h2
        exact ⟨t, by rw [of_decide_eq_true h1]; rfl⟩
      · rintro ⟨t, ht⟩
        injection ht with hc hts
        subst hc
        rw [Bool.and_eq_true]
        exact ⟨by simp, (ih ss).mpr ⟨t, hts⟩⟩

theorem startsChars_append (x t p : List Char) (h : startsChars x p = true) :
    startsChars (x ++ t) p = true := by
  obtain ⟨u, rfl⟩ := (startsChars_iff x p).mp h
  exact (startsChars_iff _ p).mpr ⟨u ++ t, by simp⟩

theorem rstrip_append_exists (s : List Char) : ∃ t, s = rstripChars s ++ t := by
  refine ⟨(s.reverse.takeWhile isPySpace).reverse, ?_⟩
  have h1 : s.reverse.takeWhile isPySpace ++ s.reverse.dropWhile isPySpace = s.reverse :=
    List.takeWhile_append_dropWhile isPySpace s.reverse
  have h2 := congrArg List.reverse h1
  rw [List.reverse_append, List.reverse_reverse] at h2
  exact h2.symm

theorem isHeaderLine_lstrip (l : List Char) (h : isHeaderLine l = true) :
    startsChars (lstripChars l) headerMark = true := by
  rw [isHeaderLine, stripChars] at h
  obtain ⟨t, ht⟩ := rstrip_append_exists (lstripChars l)
  rw [ht]
  exact startsChars_append _ _ _ h

theorem mem_lstrip (s : List Char) (c : Char) (h : c ∈ lstripChars s) : c ∈ s :=
  (List.dropWhile_sublist isPySpace).subset h

theorem lstrip_append_of_ne_nil :
    ∀ (x y : List Char), lstripChars x ≠ [] →
      lstripChars (x ++ y) = lstripChars x ++ y
  | [], _, h => absurd rfl h
  | c :: cs, y, h => by
    by_cases hc : isPySpace c = true
    · rw [lstripChars, List.dropWhile_cons, if_pos hc] at h
      rw [lstripChars, List.cons_append, List.dropWhile_cons, if_pos hc,
        lstripChars, List.dropWhile_cons, if_pos hc]
      exact lstrip_append_of_ne_nil cs y h
    · rw [lstripChars, List.cons_append, List.dropWhile_cons, if_neg hc,
        lstripChars, List.dropWhile_cons, if_neg hc, List.cons_append]

theorem lstrip_append_of_nil :
    ∀ (x y : List Char), lstripChars x = [] → lstripChars (x ++ y) = lstripChars y
  | [], _, _ => rfl
  | c :: cs, y, h => by
    by_cases hc : isPySpace c = true
    · rw [lstripChars, List.dropWhile_cons, if_pos hc] at h
      rw [lstripChars, List.cons_append, List.dropWhile_cons, if_pos hc]
      exact lstrip_append_of_nil cs y h
    · rw [lstripChars, List.dropWhile_cons, if_neg hc] at h
      exact absurd h (by simp)

theorem lstrip_cons_of_neg (c : Char) (y : List Char) (h : isPySpace c = false) :
    lstripChars (c :: y) = c :: y := by
  rw [lstripChars, List.dropWhile_cons, if_neg (by simp [h])]

theorem splitOnChar_no_sep :
    ∀ (x : List Char), (∀ c ∈ x, c ≠ ',') → splitOnChar ',' x = [x]
  | [], _ => rfl
  | c :: cs, h => by
    simp only [splitOnChar]
    rw [if_neg (h c (List.mem_cons_self c cs)),
      splitOnChar_no_sep cs (fun x hx => h x (List.mem_cons_of_mem c hx))]

theorem splitOnChar_append_sep :
    ∀ (x y : List Char), (∀ c ∈ x, c ≠ ',') →
      splitOnChar ',' (x ++ ',' :: y) = x :: splitOnChar ',' y
  | [], y, _ => by simp [splitOnChar]
  | c :: cs, y, h => by
    rw [List.cons_append]
    simp only [splitOnChar]
    rw [if_neg (h c (List.mem_cons_self c cs)),
      splitOnChar_append_sep cs y (fun x hx => h x (List.mem_cons_of_mem c hx))]

theorem splitOnChar_ne_nil (sep : Char) : ∀ (y : List Char), splitOnChar sep y ≠ []
  | [] => by simp [splitOnChar]
  | c :: cs => by
    simp only [splitOnChar]
    by_cases h : c = sep
    · simp [h]
    · rw [if_neg h]
      cases hs : splitOnChar sep cs
      · simp
      · simp

theorem splitOnChar_head_cons (c : Char) (y : List Char) (h : c ≠ ',') :
    ∃ hd tl, splitOnChar ',' (c :: y) = (c :: hd) :: tl := by
  simp only [splitOnChar]
  rw [if_neg h]
  cases hs : splitOnChar ',' y with
  | nil => exact ⟨[], [], rfl⟩
  | cons h2 t2 => exact ⟨h2, t2, rfl⟩

theorem headerMark_decomp :
    headerMark = "Author".toList ++ ',' :: ("Mod Name".toList ++ ',' :: "Version".toList) := by
  decide

theorem header_line_structure (c₀ X : List Char) (_h0 : noCRLF c₀)
    (hh : isHeaderLine (csvCell c₀ ++ ',' :: X) = true) :
    lstripChars c₀ = "Author".toList ∧
      ∃ t, splitOnChar ',' X =
        "Mod Name".toList :: splitOnChar ',' ("Version".toList ++ t) := by
  have hls := isHeaderLine_lstrip _ hh
  obtain ⟨t, ht⟩ := (startsChars_iff _ _).mp hls
  by_cases hq : needsQuote c₀ = true
  · exfalso
    rw [csvCell, if_pos hq, List.cons_append,
      lstrip_cons_of_neg _ _ (by decide), headerMark_decomp] at ht
    injection ht with hc _
    exact absurd hc (by decide)
  · have hq2 : needsQuote c₀ = false := by
      cases h : needsQuote c₀
      · rfl
      · exact absurd h hq
    have hcell : csvCell c₀ = c₀ := by
      rw [csvCell, if_neg (by simp [hq2])]
    rw [hcell] at ht
    have hnc : ∀ c ∈ c₀, c ≠ ',' := fun c hc => (needsQuote_false_props c₀ hq2 c hc).1
    by_cases hnil : lstripChars c₀ = []
    · exfalso
      rw [lstrip_append_of_nil _ _ hnil, lstrip_cons_of_neg _ _ (by decide),
        headerMark_decomp] at ht
      injection ht with hc _
      exact absurd hc (by decide)
    · rw [lstrip_append_of_ne_nil _ _ hnil] at ht
      have hsplit := congrArg (splitOnChar ',') ht
      rw [splitOnChar_append_sep _ _ (fun c hc => hnc c (mem_lstrip c₀ c hc))] at hsplit
      have hr : splitOnChar ',' (headerMark ++ t) =
          "Author".toList :: "Mod Name".toList ::
            splitOnChar ',' ("Version".toList ++ t) := by
        rw [headerMark_decomp]
        simp only [List.cons_append, List.append_assoc]
        rw [splitOnChar_append_sep _ _ (by decide),
          splitOnChar_append_sep _ _ (by decide)]
      rw [hr] at hsplit
      injection hsplit with h1 h2
      exact ⟨h1, t, h2⟩

theorem not_header_two_cells (c₀ c₁ : List Char) (h0 : noCRLF c₀) (_h1 : noCRLF c₁) :
    isHeaderLine (csvLine [c₀, c₁]) = false := by
  cases hb : isHeaderLine (csvLine [c₀, c₁])
  · rfl
  · exfalso
    have hline : csvLine [c₀, c₁] = csvCell c₀ ++ ',' :: (csvCell c₁ ++ ['\r', '\n']) := by
      rw [csvLine_eq [c₀, c₁] (by simp)]
      simp only [csvJoinCells]
      simp [List.append_assoc]
    rw [hline] at hb
    obtain ⟨_, t, hsp⟩ := header_line_structure c₀ _ h0 hb
    by_cases hq : needsQuote c₁ = true
    · rw [csvCell, if_pos hq, List.cons_append] at hsp
      obtain ⟨hd, tl, hsp2⟩ := splitOnChar_head_cons '"' _ (by decide)
      rw [hsp2] at hsp
      injection hsp with hh1 _
      have hM : "Mod Name".toList = 'M' :: "od Name".toList := rfl
      rw [hM] at hh1
      injection hh1 with hc _
      exact absurd hc (by decide)
    · have hq2 : needsQuote c₁ = false := by
        cases h : needsQuote c₁
        · rfl
        · exact absurd h hq
      have hcell : csvCell c₁ = c₁ := by rw [csvCell, if_neg (by simp [hq2])]
      rw [hcell] at hsp
      have hnc : ∀ c ∈ c₁ ++ ['\r', '\n'], c ≠ ',' := by
        intro c hc
        rcases List.mem_append.mp hc with h2 | h2
        · exact (needsQuote_false_props c₁ hq2 c h2).1
        · rcases List.mem_cons.mp h2 with rfl | h3
          · decide
          · rw [List.mem_singleton.mp h3]; decide
      rw [splitOnChar_no_sep _ hnc] at hsp
      injection hsp with _ h2
      exact splitOnChar_ne_nil ',' _ h2.symm

theorem not_header_three_cells (n a v : List Char) (hn : noCRLF n) (_ha : noCRLF a)
    (hv : versionChars v) : isHeaderLine (csvLine [n, a, v]) = false := by
  cases hb : isHeaderLine (csvLine [n, a, v])
  · rfl
  · exfalso
    have hline : csvLine [n, a, v] =
        csvCell n ++ ',' :: (csvCell a ++ ',' :: (csvCell v ++ ['\r', '\n'])) := by
      rw [csvLine_eq [n, a, v] (by simp)]
      simp only [csvJoinCells]
      simp [List.append_assoc]
    rw [hline] at hb
    obtain ⟨_, t, hsp⟩ := header_line_structure n _ hn hb
    by_cases hq : needsQuote a = true
    · rw [csvCell, if_pos hq, List.cons_append] at hsp
      obtain ⟨hd, tl, hsp2⟩ := splitOnChar_head_cons '"' _ (by decide)
      rw [hsp2] at hsp
      injection hsp with hh1 _
      have hM : "Mod Name".toList = 'M' :: "od Name".toList := rfl
      rw [hM] at hh1
      injection hh1 with hc _
      exact absurd hc (by decide)
    · have hq2 : needsQuote a = false := by
        cases h : needsQuote a
        · rfl
        · exact absurd h hq
      have hcell : csvCell a = a := by rw [csvCell, if_neg (by simp [hq2])]
      rw [hcell] at hsp
      have hnca : ∀ c ∈ a, c ≠ ',' := fun c hc => (needsQuote_false_props a hq2 c hc).1
      rw [splitOnChar_append_sep _ _ hnca] at hsp
      injection hsp with _ h2
      have hcv : csvCell v = v := by
        rw [csvCell, if_neg (by simp [versionChars_needsQuote v hv])]
      rw [hcv] at h2
      have hncv : ∀ c ∈ v ++ ['\r', '\n'], c ≠ ',' := by
        intro c hc
        rcases List.mem_append.mp hc with h3 | h3
        · rcases hv c h3 with hd | hd
          · exact (isDigit_ne c hd).1
          · rw [hd]; decide
        · rcases List.mem_cons.mp h3 with rfl | h4
          · decide
          · rw [List.mem_singleton.mp h4]; decide
      rw [splitOnChar_no_sep _ hncv] at h2
      have hV : "Version".toList ++ t = 'V' :: ("ersion".toList ++ t) := rfl
      rw [hV] at h2
      obtain ⟨hd, tl, hsp3⟩ := splitOnChar_head_cons 'V' _ (by decide)
      rw [hsp3] at h2
      injection h2 with hh1 hh2
      cases v with
      | nil =>
        injection hh1 with hc _
        exact absurd hc (by decide)
      | cons vc vs =>
        rw [List.cons_append] at hh1
        injection hh1 with hc _
        rcases hv vc (List.mem_cons_self vc vs) with hd | hd
        · rw [hc] at hd
          exact absurd hd (by decide)
        · rw [hc] at hd
          exact absurd hd (by decide)

theorem findHeaderRest_append (pre suf : List (List Char))
    (h : ∀ l ∈ pre, isHeaderLine l = false) :
    findHeaderRest (pre ++ suf) = findHeaderRest suf := by
  induction pre with
  | nil => rfl
  | cons l ls ih =>
    rw [List.cons_append, findHeaderRest,
      if_neg (by simp [h l (List.mem_cons_self l ls)])]
    exact ih (fun l2 hl2 => h l2 (List.mem_cons_of_mem l hl2))

theorem csvScan_inField :
    ∀ (s rest fld : List Char) (row : List (List Char)), (∀ c ∈ s, c ≠ ',') →
      csvScan (s ++ rest) CsvSt.inField fld row =
        csvScan rest CsvSt.inField (fld ++ s) row
  | [], rest, fld, row, _ => by simp
  | c :: cs, rest, fld, row, h => by
    rw [List.cons_append]
    simp only [csvScan]
    rw [if_neg (h c (List.mem_cons_self c cs)),
      csvScan_inField cs rest (fld ++ [c]) row
        (fun x hx => h x (List.mem_cons_of_mem c hx))]
    simp

theorem csvScan_inQuoted :
    ∀ (s rest fld : List Char) (row : List (List Char)),
      csvScan (escQuotes s ++ '"' :: rest) CsvSt.inQuoted fld row =
        csvScan rest CsvSt.quoteInQuoted (fld ++ s) row
  | [], rest, fld, row => by
    simp [escQuotes, csvScan]
  | c :: cs, rest, fld, row => by
    by_cases hc : c = '"'
    · subst hc
      have he : escQuotes ('"' :: cs) = '"' :: '"' :: escQuotes cs := by
        simp [escQuotes]
      rw [he, List.cons_append, List.cons_append]
      show csvScan (escQuotes cs ++ '"' :: rest) CsvSt.inQuoted (fld ++ ['"']) row = _
      rw [csvScan_inQuoted cs rest (fld ++ ['"']) row]
      simp
    · have he : escQuotes (c :: cs) = c :: escQuotes cs := by
        simp [escQuotes, hc]
      rw [he, List.cons_append]
      simp only [csvScan]
      rw [if_neg hc, csvScan_inQuoted cs rest (fld ++ [c]) row]
      simp

theorem csvScan_cell_end (c : List Char) (row : List (List Char)) (h : noCRLF c) :
    csvScan (csvCell c) CsvSt.startField [] row = row ++ [c] := by
  by_cases hq : needsQuote c = true
  · rw [csvCell, if_pos hq]
    show csvScan (escQuotes c ++ ['"']) CsvSt.inQuoted [] row = _
    rw [show escQuotes c ++ ['"'] = escQuotes c ++ '"' :: [] from rfl,
      csvScan_inQuoted c [] [] row]
    simp [csvScan]
  · have hq2 : needsQuote c = false := by
      cases hb : needsQuote c
      · rfl
      · exact absurd hb hq
    have hcell : csvCell c = c := by rw [csvCell, if_neg (by simp [hq2])]
    rw [hcell]
    cases c with
    | nil => simp [csvScan]
    | cons ch cs =>
      have hp := needsQuote_false_props _ hq2 ch (List.mem_cons_self ch cs)
      simp only [csvScan]
      rw [if_neg hp.2.1, if_neg hp.1,
        show cs = cs ++ [] from (List.append_nil cs).symm,
        csvScan_inField cs [] ([] ++ [ch]) row
          (fun x hx => (needsQuote_false_props _ hq2 x (List.mem_cons_of_mem ch hx)).1)]
      simp [csvScan]

theorem csvScan_cell_mid (c r : List Char) (row : List (List Char)) (h : noCRLF c) :
    csvScan (csvCell c ++ ',' :: r) CsvSt.startField [] row =
      csvScan r CsvSt.startField [] (row ++ [c]) := by
  by_cases hq : needsQuote c = true
  · rw [csvCell, if_pos hq, List.cons_append]
    show csvScan ((escQuotes c ++ ['"']) ++ ',' :: r) CsvSt.inQuoted [] row = _
    rw [show (escQuotes c ++ ['"']) ++ ',' :: r = escQuotes c ++ '"' :: (',' :: r) by simp,
      csvScan_inQuoted c (',' :: r) [] row]
    show csvScan r CsvSt.startField [] (row ++ [[] ++ c]) = _
    simp
  · have hq2 : needsQuote c = false := by
      cases hb : needsQuote c
      · rfl
      · exact absurd hb hq
    have hcell : csvCell c = c := by rw [csvCell, if_neg (by simp [hq2])]
    rw [hcell]
    cases c with
    | nil => rfl
    | cons ch cs =>
      have hp := needsQuote_false_props _ hq2 ch (List.mem_cons_self ch cs)
      rw [List.cons_append]
      simp only [csvScan]
      rw [if_neg hp.2.1, if_neg hp.1,
        csvScan_inField cs (',' :: r) ([] ++ [ch]) row
          (fun x hx => (needsQuote_false_props _ hq2 x (List.mem_cons_of_mem ch hx)).1)]
      show csvScan r CsvSt.startField [] (row ++ [[] ++ [ch] ++ cs]) = _
      simp

theorem csvScan_cells :
    ∀ (cells : List (List Char)), cells ≠ [] → (∀ x ∈ cells, noCRLF x) →
      ∀ row, csvScan (csvJoinCells cells) CsvSt.startField [] row = row ++ cells
  | [], hne, _, _ => absurd rfl hne
  | [c], _, h, row => by
    rw [csvJoinCells]
    exact csvScan_cell_end c row (h c (List.mem_singleton.mpr rfl))
  | c :: c2 :: rest, _, h, row => by
    rw [csvJoinCells,
      csvScan_cell_mid c _ row (h c (List.mem_cons_self c _)),
      csvScan_cells (c2 :: rest) (by simp)
        (fun x hx => h x (List.mem_cons_of_mem c hx)) (row ++ [c])]
    simp

theorem csvJoinCells_two_ne_nil (x y : List Char) (rest : List (List Char)) :
    csvJoinCells (x :: y :: rest) ≠ [] := by
  rw [csvJoinCells]
  simp

theorem parseCsvLine_cells (cells : List (List Char)) (hne : cells ≠ [])
    (hnn : csvJoinCells cells ≠ []) (h : ∀ x ∈ cells, noCRLF x) :
    parseCsvLine (csvJoinCells cells) = cells := by
  cases hj : csvJoinCells cells with
  | nil => exact absurd hj hnn
  | cons jc js =>
    show csvScan (jc :: js) CsvSt.startField [] [] = cells
    rw [← hj, csvScan_cells cells hne h []]
    rfl

theorem dictInsert_fresh {α : Type} :
    ∀ (acc : List (List Char × α)) (k : List Char) (v : α),
      k ∉ acc.map Prod.fst → dictInsert acc k v = acc ++ [(k, v)]
  | [], _, _, _ => rfl
  | (k2, v2) :: rest, k, v, h => by
    have hne : k2 ≠ k := by
      intro hc
      exact h (hc ▸ List.mem_map_of_mem Prod.fst (List.mem_cons_self (k2, v2) rest))
    rw [dictInsert, if_neg hne,
      dictInsert_fresh rest k v (fun hm => h (List.mem_cons_of_mem _ hm))]
    rfl

theorem rowGet_zip_author (a n v e d w : List Char) :
    rowGet (headerCells.zip (a :: [n, v, e, d, w])) "Author".toList = some a := rfl

theorem rowGet_zip_name (a n v e d w : List Char) :
    rowGet (headerCells.zip (a :: [n, v, e, d, w])) "Mod Name".toList = some n := rfl

theorem dataCells_noCRLF (m : ModRecord) (hm : goodRecord m) :
    ∀ x ∈ dataCells m, noCRLF x := by
  obtain ⟨_, _, h3, h4, h5, h6, h7, h8⟩ := hm
  intro x hx
  rw [dataCells] at hx
  rcases List.mem_cons.mp hx with rfl | hx
  · exact h3
  rcases List.mem_cons.mp hx with rfl | hx
  · exact h4
  rcases List.mem_cons.mp hx with rfl | hx
  · exact noCRLF_of_versionChars _ h5
  rcases List.mem_cons.mp hx with rfl | hx
  · exact h6
  rcases List.mem_cons.mp hx with rfl | hx
  · exact h7
  rcases List.mem_cons.mp hx with rfl | hx
  · exact h8
  · simp at hx

theorem readerStep_data (m : ModRecord) (acc : List (List Char × CsvRow))
    (hm : goodRecord m) :
    readerStep headerCells acc (csvLine (dataCells m)) =
      dictInsert acc (modKey m) (headerCells.zip (dataCells m)) := by
  have hd : dropEol (csvLine (dataCells m)) = csvJoinCells (dataCells m) := by
    rw [csvLine_eq _ (by rw [dataCells]; simp)]
    exact dropEol_append _
  have hp : parseCsvLine (dropEol (csvLine (dataCells m))) =
      m.author :: [m.name, m.version, m.enabled, m.description, m.website] := by
    rw [hd, parseCsvLine_cells (dataCells m) (by rw [dataCells]; simp)
      (by rw [dataCells]; exact csvJoinCells_two_ne_nil _ _ _) (dataCells_noCRLF m hm)]
    rfl
  unfold readerStep
  rw [hp]
  dsimp only []
  rw [rowGet_zip_author, rowGet_zip_name]
  simp only [Option.getD_some]
  rw [if_pos ⟨hm.1, hm.2.1⟩]
  rfl

theorem readerFold_data :
    ∀ (mods : List ModRecord) (acc : List (List Char × CsvRow)),
      (∀ m ∈ mods, goodRecord m) →
      mods.Pairwise (fun m₁ m₂ => modKey m₁ ≠ modKey m₂) →
      (∀ m ∈ mods, modKey m ∉ acc.map Prod.fst) →
      ((mods.map dataCells).map csvLine).foldl (readerStep headerCells) acc =
        acc ++ mods.map (fun m => (modKey m, headerCells.zip (dataCells m)))
  | [], acc, _, _, _ => by simp
  | m :: ms, acc, hg, hp, hf => by
    simp only [List.map_cons, List.foldl_cons]
    rw [readerStep_data m acc (hg m (List.mem_cons_self m ms)),
      dictInsert_fresh acc (modKey m) _ (hf m (List.mem_cons_self m ms))]
    have hfresh : ∀ m2 ∈ ms,
        modKey m2 ∉ (acc ++ [(modKey m, headerCells.zip (dataCells m))]).map Prod.fst := by
      intro m2 hm2
      rw [List.map_append]
      intro hmem
      rcases List.mem_append.mp hmem with h1 | h1
      · exact hf m2 (List.mem_cons_of_mem m hm2) h1
      · simp only [List.map_cons, List.map_nil, List.mem_singleton] at h1
        exact (List.pairwise_cons.mp hp).1 m2 hm2 h1.symm
    rw [readerFold_data ms (acc ++ [(modKey m, headerCells.zip (dataCells m))])
      (fun m2 hm2 => hg m2 (List.mem_cons_of_mem m hm2))
      (List.pairwise_cons.mp hp).2 hfresh]
    simp

theorem calcStats_profile (l : List ModRecord) (p n : List Char) :
    (calculate_statistics l p n).profile_name = p := rfl

theorem calcStats_date (l : List ModRecord) (p n : List Char) :
    (calculate_statistics l p n).export_date = n := rfl

theorem twoCellsOk (c₀ c₁ : List Char) (h0 : noCRLF c₀) (h1 : noCRLF c₁) :
    (∀ x ∈ [c₀, c₁], noCRLF x) ∧ isHeaderLine (csvLine [c₀, c₁]) = false := by
  refine ⟨?_, not_header_two_cells c₀ c₁ h0 h1⟩
  intro x hx
  rcases List.mem_cons.mp hx with rfl | hx2
  · exact h0
  rcases List.mem_cons.mp hx2 with rfl | hx3
  · exact h1
  · simp at hx3

theorem threeCellsOk (n a v : List Char) (hn : noCRLF n) (ha : noCRLF a)
    (hv : versionChars v) :
    (∀ x ∈ [n, a, v], noCRLF x) ∧ isHeaderLine (csvLine [n, a, v]) = false := by
  refine ⟨?_, not_header_three_cells n a v hn ha hv⟩
  intro x hx
  rcases List.mem_cons.mp hx with rfl | hx2
  · exact hn
  rcases List.mem_cons.mp hx2 with rfl | hx3
  · exact ha
  rcases List.mem_cons.mp hx3 with rfl | hx4
  · exact noCRLF_of_versionChars _ hv
  · simp at hx4

theorem statsRows_rows_ok (stats : ModStats)
    (hprof : noCRLF stats.profile_name) (hnow : noCRLF stats.export_date)
    (htop : ∀ e ∈ stats.top_authors, noCRLF e.1)
    (hnew : ∀ m ∈ stats.newest_mods,
      noCRLF m.name ∧ noCRLF m.author ∧ versionChars m.version)
    (hold : ∀ m ∈ stats.oldest_mods,
      noCRLF m.name ∧ noCRLF m.author ∧ versionChars m.version) :
    ∀ cells ∈ statsRows stats,
      (∀ x ∈ cells, noCRLF x) ∧ isHeaderLine (csvLine cells) = false := by
  intro cells hc
  rw [statsRows] at hc
  simp only [List.mem_append] at hc
  rcases hc with ((((((h | h) | h) | h) | h) | h) | h)
  · simp only [List.mem_cons, List.not_mem_nil, or_false] at h
    rcases h with rfl | rfl | rfl | rfl | rfl | rfl | rfl | rfl | rfl | rfl
    · exact ⟨by decide, by decide⟩
    · exact ⟨by decide, by decide⟩
    · exact twoCellsOk _ _ (by decide) hprof
    · exact twoCellsOk _ _ (by decide) hnow
    · exact twoCellsOk _ _ (by decide) (noCRLF_natChars _)
    · exact twoCellsOk _ _ (by decide) (noCRLF_natChars _)
    · exact twoCellsOk _ _ (by decide) (noCRLF_natChars _)
    · exact twoCellsOk _ _ (by decide) (noCRLF_natChars _)
    · exact ⟨by decide, by decide⟩
    · exact ⟨by decide, by decide⟩
  · obtain ⟨e, he, rfl⟩ := List.mem_map.mp h
    exact twoCellsOk _ _ (htop e he) (noCRLF_natChars_mods e.2)
  · simp only [List.mem_cons, List.not_mem_nil, or_false] at h
    rcases h with rfl | rfl | rfl
    · exact ⟨by decide, by decide⟩
    · exact ⟨by decide, by decide⟩
    · exact ⟨by decide, by decide⟩
  · obtain ⟨m2, hm2, rfl⟩ := List.mem_map.mp h
    obtain ⟨g1, g2, g3⟩ := hnew m2 hm2
    exact threeCellsOk _ _ _ g1 g2 g3
  · simp only [List.mem_cons, List.not_mem_nil, or_false] at h
    rcases h with rfl | rfl | rfl
    · exact ⟨by decide, by decide⟩
    · exact ⟨by decide, by decide⟩
    · exact ⟨by decide, by decide⟩
  · obtain ⟨m2, hm2, rfl⟩ := List.mem_map.mp h
    obtain ⟨g1, g2, g3⟩ := hold m2 hm2
    exact threeCellsOk _ _ _ g1 g2 g3
  · simp only [List.mem_cons, List.not_mem_nil, or_false] at h
    rcases h with rfl | rfl | rfl | rfl
    · exact ⟨by decide, by decide⟩
    · exact ⟨by decide, by decide⟩
    · exact ⟨by decide, by decide⟩
    · exact ⟨by decide, by decide⟩

theorem calcStats_member_facts (mods : List ModRecord) (profile now : List Char)
    (hgood : ∀ m ∈ mods, goodRecord m) :
    (∀ e ∈ (calculate_statistics mods profile now).top_authors, noCRLF e.1) ∧
    (∀ m ∈ (calculate_statistics mods profile now).newest_mods,
      noCRLF m.name ∧ noCRLF m.author ∧ versionChars m.version) ∧
    (∀ m ∈ (calculate_statistics mods profile now).oldest_mods,
      noCRLF m.name ∧ noCRLF m.author ∧ versionChars m.version) := by
  refine ⟨?_, ?_, ?_⟩
  · intro e he
    rw [calcStats_top] at he
    have he2 : e ∈ authorCounts mods :=
      (List.perm_insertionSort rCountDesc _).mem_iff.mp (List.mem_of_mem_take he)
    have hk : e.1 ∈ (authorCounts mods).map Prod.fst :=
      List.mem_map_of_mem Prod.fst he2
    rw [authorCounts_eq_foldl] at hk
    rcases (mem_keys_foldl _ [] e.1).mp hk with h2 | h2
    · simp at h2
    · obtain ⟨m, hm, heq⟩ := List.mem_map.mp h2
      rw [← heq]
      exact (hgood m hm).2.2.1
  · intro m2 hm2
    rw [calcStats_newest] at hm2
    have hmem : m2 ∈ mods :=
      (List.perm_insertionSort rVerDesc mods).mem_iff.mp (List.mem_of_mem_take hm2)
    obtain ⟨_, _, g3, g4, g5, _, _, _⟩ := hgood m2 hmem
    exact ⟨g4, g3, g5⟩
  · intro m2 hm2
    rw [calcStats_oldest, List.mem_reverse] at hm2
    have hmem : m2 ∈ mods :=
      (List.perm_insertionSort rVerDesc mods).mem_iff.mp (List.mem_of_mem_drop hm2)
    obtain ⟨_, _, g3, g4, g5, _, _, _⟩ := hgood m2 hmem
    exact ⟨g4, g3, g5⟩

theorem load_export_eq (mods : List ModRecord) (profile now : List Char)
    (hprof : noCRLF profile) (hnow : noCRLF now)
    (hgood : ∀ m ∈ mods, goodRecord m)
    (hkeys : mods.Pairwise (fun m₁ m₂ => modKey m₁ ≠ modKey m₂)) :
    load_csv_for_comparison
        (export_to_csv mods (calculate_statistics mods profile now)) =
      mods.map (fun m => (modKey m, headerCells.zip (dataCells m))) := by
  obtain ⟨htop, hnew, hold⟩ := calcStats_member_facts mods profile now hgood
  have hrows := statsRows_rows_ok (calculate_statistics mods profile now)
    (by rw [calcStats_profile]; exact hprof)
    (by rw [calcStats_date]; exact hnow) htop hnew hold
  have hall : ∀ cells ∈ statsRows (calculate_statistics mods profile now) ++
      [headerCells] ++ mods.map dataCells, ∀ x ∈ cells, noCRLF x := by
    intro cells hc
    rcases List.mem_append.mp hc with h1 | h1
    · rcases List.mem_append.mp h1 with h2 | h2
      · exact (hrows cells h2).1
      · rw [List.mem_singleton.mp h2]
        intro x hx
        fin_cases hx <;> decide
    · obtain ⟨m, hm, rfl⟩ := List.mem_map.mp h1
      exact dataCells_noCRLF m (hgood m hm)
  have hsplit : splitLinesKeepNl
      (export_to_csv mods (calculate_statistics mods profile now)) =
      ((statsRows (calculate_statistics mods profile now) ++ [headerCells] ++
        mods.map dataCells).map csvLine) := by
    rw [export_to_csv]
    refine splitLines_flatten _ ?_
    intro l hl
    obtain ⟨cells, hcm, rfl⟩ := List.mem_map.mp hl
    exact csvLine_shape cells (hall cells hcm)
  have hfind : findHeaderRest (splitLinesKeepNl
      (export_to_csv mods (calculate_statistics mods profile now))) =
      some (csvLine headerCells, (mods.map dataCells).map csvLine) := by
    rw [hsplit, List.map_append, List.map_append, List.append_assoc,
      findHeaderRest_append _ _ (fun l hl => by
        obtain ⟨cells, hcm, rfl⟩ := List.mem_map.mp hl
        exact (hrows cells hcm).2)]
    show findHeaderRest (csvLine headerCells :: (mods.map dataCells).map csvLine) = _
    rw [findHeaderRest, if_pos (by decide)]
  rw [load_csv_for_comparison, hfind]
  show ((mods.map dataCells).map csvLine).foldl
    (readerStep (parseCsvLine (dropEol (csvLine headerCells)))) [] = _
  rw [show parseCsvLine (dropEol (csvLine headerCells)) = headerCells from by decide]
  rw [readerFold_data mods [] hgood hkeys (by simp)]
  simp

theorem lookup_map_of_mem :
    ∀ (mods : List ModRecord),
      mods.Pairwise (fun m₁ m₂ => modKey m₁ ≠ modKey m₂) →
      ∀ m ∈ mods,
        lookupRow (mods.map (fun m2 => (modKey m2, headerCells.zip (dataCells m2))))
          (modKey m) = some (headerCells.zip (dataCells m))
  | [], _, m, hm => by simp at hm
  | m0 :: rest, hp, m, hm => by
    rcases List.mem_cons.mp hm with rfl | hm2
    · simp [lookupRow, List.find?]
    · have hne : modKey m0 ≠ modKey m := (List.pairwise_cons.mp hp).1 m hm2
      simp only [List.map_cons, lookupRow, List.find?]
      rw [show (decide ((modKey m0, headerCells.zip (dataCells m0)).1 = modKey m)) = false
        from by simp [hne]]
      exact lookup_map_of_mem rest (List.pairwise_cons.mp hp).2 m hm2

/-- Claim C1 (amended): exporting records whose author and name are non-blank,
whose fields contain no embedded line breaks, whose version strings are in
the canonical digits-and-dots format, and whose `author:name` keys are
pairwise distinct, and reading the file back, recovers a mapping with exactly
one entry per record, keyed `author:name`, whose Author, Mod Name, Version
and Enabled fields equal to the field values of the record.  (Duplicate keys collapse
by last-write-wins, so the unrestricted claim fails, see the
counterexample.) -/
theorem c1_export_load_roundtrip (mods : List ModRecord) (profile now : List Char)
    (hprof : noCRLF profile) (hnow : noCRLF now)
    (hgood : ∀ m ∈ mods, goodRecord m)
    (hkeys : mods.Pairwise (fun m₁ m₂ => modKey m₁ ≠ modKey m₂)) :
    (load_csv_for_comparison
      (export_to_csv mods (calculate_statistics mods profile now))).length =
        mods.length ∧
    ∀ m ∈ mods, ∃ row,
      lookupRow (load_csv_for_comparison
          (export_to_csv mods (calculate_statistics mods profile now)))
        (modKey m) = some row ∧
      rowGet row "Author".toList = some m.author ∧
      rowGet row "Mod Name".toList = some m.name ∧
      rowGet row "Version".toList = some m.version ∧
      rowGet row "Enabled".toList = some m.enabled := by
  rw [load_export_eq mods profile now hprof hnow hgood hkeys]
  constructor
  · simp
  · intro m hm
    exact ⟨headerCells.zip (dataCells m), lookup_map_of_mem mods hkeys m hm,
      rfl, rfl, rfl, rfl⟩

/-- Witness for C1: a two-record profile round-trips to a two-entry mapping
with matching fields. -/
theorem c1_export_load_roundtrip_witness :
    (load_csv_for_comparison (export_to_csv
      [⟨"WardIsLove".toList, "Azumatt".toList, "5.4.2333".toList,
          "desc, text".toList, "Yes".toList, "http://x".toList⟩,
        ⟨"Other".toList, "Bob".toList, "1.2.0".toList, [], "No".toList, []⟩]
      (calculate_statistics
        [⟨"WardIsLove".toList, "Azumatt".toList, "5.4.2333".toList,
            "desc, text".toList, "Yes".toList, "http://x".toList⟩,
          ⟨"Other".toList, "Bob".toList, "1.2.0".toList, [], "No".toList, []⟩]
        "Prof".toList "2025".toList))).length = 2 ∧
    ∀ m ∈ [⟨"WardIsLove".toList, "Azumatt".toList, "5.4.2333".toList,
        "desc, text".toList, "Yes".toList, "http://x".toList⟩,
      (⟨"Other".toList, "Bob".toList, "1.2.0".toList, [], "No".toList, []⟩ :
        ModRecord)], ∃ row,
      lookupRow (load_csv_for_comparison (export_to_csv
        [⟨"WardIsLove".toList, "Azumatt".toList, "5.4.2333".toList,
            "desc, text".toList, "Yes".toList, "http://x".toList⟩,
          ⟨"Other".toList, "Bob".toList, "1.2.0".toList, [], "No".toList, []⟩]
        (calculate_statistics
          [⟨"WardIsLove".toList, "Azumatt".toList, "5.4.2333".toList,
              "desc, text".toList, "Yes".toList, "http://x".toList⟩,
            ⟨"Other".toList, "Bob".toList, "1.2.0".toList, [], "No".toList, []⟩]
          "Prof".toList "2025".toList))) (modKey m) = some row ∧
      rowGet row "Author".toList = some m.author ∧
      rowGet row "Mod Name".toList = some m.name ∧
      rowGet row "Version".toList = some m.version ∧
      rowGet row "Enabled".toList = some m.enabled :=
  c1_export_load_roundtrip _ "Prof".toList "2025".toList
    (by decide) (by decide) (by decide) (by decide)

/-- Counterexample for C1 as frozen: two records sharing the key `A:N` export
to two data rows, but the reader dict collapses them to a single entry —
the mapping does not have N = 2 entries. -/
theorem c1_export_load_cex :
    (load_csv_for_comparison (export_to_csv
      [⟨"N".toList, "A".toList, "1.0.0".toList, [], "Yes".toList, []⟩,
        ⟨"N".toList, "A".toList, "1.0.0".toList, [], "Yes".toList, []⟩]
      (calculate_statistics
        [⟨"N".toList, "A".toList, "1.0.0".toList, [], "Yes".toList, []⟩,
          ⟨"N".toList, "A".toList, "1.0.0".toList, [], "Yes".toList, []⟩]
        "p".toList "d".toList))).length = 1 ∧
    (load_csv_for_comparison (export_to_csv
      [⟨"N".toList, "A".toList, "1.0.0".toList, [], "Yes".toList, []⟩,
        ⟨"N".toList, "A".toList, "1.0.0".toList, [], "Yes".toList, []⟩]
      (calculate_statistics
        [⟨"N".toList, "A".toList, "1.0.0".toList, [], "Yes".toList, []⟩,
          ⟨"N".toList, "A".toList, "1.0.0".toList, [], "Yes".toList, []⟩]
        "p".toList "d".toList))).length ≠
      [⟨"N".toList, "A".toList, "1.0.0".toList, [], "Yes".toList, []⟩,
        (⟨"N".toList, "A".toList, "1.0.0".toList, [], "Yes".toList, []⟩ :
          ModRecord)].length := by
  constructor
  · decide
  · decide

example : pyStr (PyVal.int 23) = "23".toList := by decide
example : pyIntChars " 42 ".toList = some 42 := by decide
example : pyIntChars "4_2".toList = some 42 := by decide
example : pyIntChars "4__2".toList = Option.none := by decide
example : pyIntChars "".toList = Option.none := by decide
example : version_key ⟨[], [], "5.4.2333".toList, [], [], []⟩ = [5, 4, 2333] := by decide
example : version_key ⟨[], [], "1.2".toList, [], [], []⟩ = [1, 2] := by decide
example : version_key ⟨[], [], "1.x.3".toList, [], [], []⟩ = [0, 0, 0] := by decide
